import Mathlib

/-!
Verification development for the LLM-Pedigree-Builder repository.

The development shallowly embeds the two core components of the repository:

* `src/pedigree_builder.py` — the schema and normalization layer.  Python
  values parsed from JSON are modelled by the inductive type `Json`
  (JSON numbers relevant to the schema are integers; Python `bool` is kept
  as a separate constructor, and the places where Python treats `bool` as
  `int` — `isinstance(x, int)`, `==` on set membership — are modelled
  explicitly).  Python dictionaries are modelled as insertion-ordered
  association lists with unique-key update semantics, and code that can
  raise (`TypeError` / `AttributeError` on wrongly-shaped values) is
  modelled in an `Except PyError` monad.
* `src/analysis_engine.py` — the analysis engine, modelled over canonical
  pedigree records (the shape produced by the ingestion entry point).  The
  repository's optional `networkx` backend is an external library; the
  in-repository `_FallbackDiGraph` backend and the
  `_build_cycle_basis_fallback` depth-first search are the code embedded
  here.
-/

/-- A parsed JSON value, as produced by Python's `json.loads` for the
payloads this repository handles.  Object fields are kept in insertion
order with unique keys. -/
inductive Json where
  | null : Json
  | bool (b : Bool) : Json
  | int (n : Int) : Json
  | str (s : String) : Json
  | arr (items : List Json) : Json
  | obj (fields : List (String × Json)) : Json

/-- First-match lookup in an association list (Python `dict` access; keys
are unique by construction, so first match is the match). -/
def lookupKey : List (String × Json) → String → Option Json
  | [], _ => none
  | (k, v) :: rest, key => if k = key then some v else lookupKey rest key

/-- Python `d[k] = v` on a dict: replace the value in place if the key is
present, otherwise append the new binding at the end. -/
def setKey : List (String × Json) → String → Json → List (String × Json)
  | [], key, v => [(key, v)]
  | (k, w) :: rest, key, v =>
    if k = key then (k, v) :: rest else (k, w) :: setKey rest key v

/-- Python `k in d` for a dict. -/
def hasKey (kvs : List (String × Json)) (key : String) : Bool :=
  (lookupKey kvs key).isSome

/-- ASCII lower-casing of one character, as Python `str.lower` acts on the
ASCII range (the only range exercised by this repository's data). -/
def lowerChar (c : Char) : Char :=
  if 65 ≤ c.toNat ∧ c.toNat ≤ 90 then Char.ofNat (c.toNat + 32) else c

/-- Model of Python `str.lower`. -/
def lowerStr (s : String) : String := String.mk (s.data.map lowerChar)

/-- Characters removed by Python `str.strip()` (the whitespace characters
occurring in this repository's data). -/
def isSpaceChar (c : Char) : Bool := c = ' ' ∨ c = '\t' ∨ c = '\n' ∨ c = '\r'

/-- Strip on the character list: drop leading and trailing whitespace. -/
def stripChars (l : List Char) : List Char :=
  ((l.dropWhile isSpaceChar).reverse.dropWhile isSpaceChar).reverse

/-- Model of Python `str.strip()`. -/
def stripStr (s : String) : String := String.mk (stripChars s.data)

/-- The composite `s.lower().strip()` used by `_normalize_relationship`. -/
def lowerStripStr (s : String) : String := stripStr (lowerStr s)

/-- Python-level exceptions that escape the schema layer on wrongly-shaped
input (anything other than the repository's own `PedigreeValidationError`). -/
inductive PyError where
  | typeError (msg : String) : PyError
  | attributeError (msg : String) : PyError

/-- Computations that may raise a Python-level exception. -/
abbrev Py (α : Type) : Type := Except PyError α

/-- Python `value.get(key, default)`: only mappings have `.get`; any other
value raises `AttributeError`. -/
def pyDictGet (v : Json) (key : String) (dflt : Json) : Py Json :=
  match v with
  | .obj kvs => .ok ((lookupKey kvs key).getD dflt)
  | _ => .error (.attributeError "object has no attribute get")

/-- Python `value[key] = x` for a string key: only mappings support string
item assignment; every other JSON-representable value raises `TypeError`. -/
def pySetItem (v : Json) (key : String) (x : Json) : Py Json :=
  match v with
  | .obj kvs => .ok (.obj (setKey kvs key x))
  | _ => .error (.typeError "object does not support item assignment")

/-- Python `value[key]` for a string key on a mapping (`KeyError` is not
distinguished from the other escaping exceptions). -/
def pyGetItem (v : Json) (key : String) : Py Json :=
  match v with
  | .obj kvs =>
    match lookupKey kvs key with
    | some x => .ok x
    | none => .error (.typeError "KeyError")
  | _ => .error (.typeError "value is not subscriptable by string")

/-- Python iteration `for x in value`: lists yield their elements, dicts
their keys, strings their characters (as 1-character strings); other
JSON-representable values are not iterable and raise `TypeError`. -/
def pyIter (v : Json) : Py (List Json) :=
  match v with
  | .arr items => .ok items
  | .obj kvs => .ok (kvs.map fun kv => Json.str kv.1)
  | .str s => .ok (s.data.map fun c => Json.str (String.mk [c]))
  | _ => .error (.typeError "object is not iterable")

/-- Python `value.lower().strip()`: raises `AttributeError` unless the
value is a string. -/
def pyLowerStrip (v : Json) : Py Json :=
  match v with
  | .str s => .ok (.str (lowerStripStr s))
  | _ => .error (.attributeError "object has no attribute lower")

/-- A `for` loop collecting one result per element, stopping at the first
raised exception. -/
def mapPy {α β : Type} (f : α → Py β) : List α → Py (List β)
  | [] => .ok []
  | x :: xs => do
    let y ← f x
    let ys ← mapPy f xs
    pure (y :: ys)

/-- Python `isinstance(v, int)`: note that Python `bool` is a subclass of
`int`, so booleans pass this check. -/
def isInstInt (v : Json) : Bool :=
  match v with
  | .int _ => true
  | .bool _ => true
  | _ => false

/-- Python `isinstance(v, dict)`. -/
def isInstDict (v : Json) : Bool :=
  match v with
  | .obj _ => true
  | _ => false

/-- Python `isinstance(v, list)`. -/
def isInstList (v : Json) : Bool :=
  match v with
  | .arr _ => true
  | _ => false

/-- The integer a hashable scalar compares equal to under Python `==`
(`True == 1`, `False == 0`); `none` for values that are not
integer-valued. -/
def pyIntVal (v : Json) : Option Int :=
  match v with
  | .int n => some n
  | .bool b => some (if b then 1 else 0)
  | _ => none

/-- Python `v in s` for a set of ints: unhashable values (lists, dicts)
raise `TypeError`; hashable non-integer values are simply not members. -/
def pyMemIntSet (v : Json) (s : List Int) : Py Bool :=
  match v with
  | .arr _ => .error (.typeError "unhashable type")
  | .obj _ => .error (.typeError "unhashable type")
  | _ =>
    match pyIntVal v with
    | some n => .ok (s.contains n)
    | none => .ok false

/-- Python `v in s` for a set of strings: unhashable values raise
`TypeError`; hashable non-string values are not members. -/
def pyMemStrSet (v : Json) (s : List String) : Py Bool :=
  match v with
  | .arr _ => .error (.typeError "unhashable type")
  | .obj _ => .error (.typeError "unhashable type")
  | .str t => .ok (s.contains t)
  | _ => .ok false

/-- Python `str(v)` as used by the repository's f-strings, for the scalar
values that actually reach them. -/
def pyStrOf (v : Json) : String :=
  match v with
  | .null => "None"
  | .bool b => if b then "True" else "False"
  | .int n => toString n
  | .str s => s
  | .arr _ => "a list"
  | .obj _ => "a dict"

/-- Digit-only check for a date component. -/
def allDigits (l : List Char) : Bool := l.all fun c => c.isDigit

/-- Numeric value of a digit string. -/
def digitsToNat (l : List Char) : Nat :=
  l.foldl (fun acc c => acc * 10 + (c.toNat - 48)) 0

/-- Days per month, Gregorian calendar, as `datetime` uses. -/
def daysInMonth (year month : Nat) : Nat :=
  if month = 2 then
    if year % 4 = 0 ∧ (year % 100 ≠ 0 ∨ year % 400 = 0) then 29 else 28
  else if month = 4 ∨ month = 6 ∨ month = 9 ∨ month = 11 then 30
  else 31

/-- The `%d` field of `strptime("%Y-%m-%d")`: per CPython's `_strptime`
regex `3[01]|[12]\d|0[1-9]|[1-9]| [1-9]`, one or two digits or a space
followed by a nonzero digit, then checked by the `datetime` constructor
against the proleptic-Gregorian month length. -/
def dayFieldOK (y m d : List Char) : Bool :=
  match d with
  | [' ', c] => ('1' ≤ c ∧ c ≤ '9') ∧
      digitsToNat [c] ≤ daysInMonth (digitsToNat y) (digitsToNat m)
  | _ =>
      allDigits d ∧ 1 ≤ d.length ∧ d.length ≤ 2 ∧
      1 ≤ digitsToNat d ∧ digitsToNat d ≤ daysInMonth (digitsToNat y) (digitsToNat m)

/-- Model of `datetime.strptime(value, "%Y-%m-%d")` succeeding, following
CPython's `_strptime` regexes and the `datetime` constructor: `%Y`
matches exactly four digits (with the constructed year at least
`datetime.MINYEAR = 1`), `%m` one or two digits valued `1..12`
(`1[0-2]|0[1-9]|[1-9]`), the day per `dayFieldOK`, and the whole string
consumed (so exactly three dash-separated fields). -/
def validDateStr (s : String) : Bool :=
  match s.data.splitOn '-' with
  | [y, m, d] =>
    allDigits y ∧ y.length = 4 ∧ 1 ≤ digitsToNat y ∧
    allDigits m ∧ 1 ≤ m.length ∧ m.length ≤ 2 ∧
    1 ≤ digitsToNat m ∧ digitsToNat m ≤ 12 ∧
    dayFieldOK y m d
  | _ => false

/-- `_is_valid_dob` from `pedigree_builder.py`: the literal `"approx"` is
accepted for any value; otherwise `strptime` is attempted, which raises
`TypeError` (uncaught — the function only catches `ValueError`) when the
value is not a string. -/
def _is_valid_dob (value : Json) : Py Bool :=
  match value with
  | .str s => if s = "approx" then .ok true else .ok (validDateStr s)
  | _ => .error (.typeError "strptime argument must be str")

/-- `ALLOWED_GENDERS` from `pedigree_builder.py`. -/
def ALLOWED_GENDERS : List String := ["M", "F", "O"]

/-- `ALLOWED_RELATIONSHIP_TYPES` from `pedigree_builder.py`. -/
def ALLOWED_RELATIONSHIP_TYPES : List String :=
  ["parent", "child", "sibling", "spouse", "adopted", "uncle", "aunt", "cousin"]

/-- `_normalize_relationship` from `pedigree_builder.py`:
`from`/`to` are read from the canonical key, falling back to the
alternate `from_id`/`to_id` spelling and then to `None`; `type` defaults
to `""` and is lower-cased and stripped (raising `AttributeError` if the
stored value is not a string). -/
def _normalize_relationship (raw : Json) : Py Json := do
  let fromAlt ← pyDictGet raw "from_id" Json.null
  let fromVal ← pyDictGet raw "from" fromAlt
  let toAlt ← pyDictGet raw "to_id" Json.null
  let toVal ← pyDictGet raw "to" toAlt
  let tyRaw ← pyDictGet raw "type" (Json.str "")
  let tyVal ← pyLowerStrip tyRaw
  pure (Json.obj [("from", fromVal), ("to", toVal), ("type", tyVal)])

/-- The recursion behind `ensure_unique_ids`: `enumerate(people, start=1)`
with a deep copy (the identity on JSON-representable values) followed by
`person_copy["id"] = index`, which raises `TypeError` on non-mapping
elements. -/
def ensureUniqueIdsFrom : Int → List Json → Py (List Json)
  | _, [] => .ok []
  | i, person :: rest => do
    let personCopy ← pySetItem person "id" (Json.int i)
    let rest' ← ensureUniqueIdsFrom (i + 1) rest
    pure (personCopy :: rest')

/-- `ensure_unique_ids` from `pedigree_builder.py`. -/
def ensure_unique_ids (people : List Json) : Py (List Json) :=
  ensureUniqueIdsFrom 1 people

/-- `normalize_pedigree` from `pedigree_builder.py`. -/
def normalize_pedigree (pedigree : Json) : Py Json := do
  let peopleRaw ← pyDictGet pedigree "people" (Json.arr [])
  let peopleItems ← pyIter peopleRaw
  let people ← ensure_unique_ids peopleItems
  let relsRaw ← pyDictGet pedigree "relationships" (Json.arr [])
  let relItems ← pyIter relsRaw
  let rels ← mapPy _normalize_relationship relItems
  pure (Json.obj [("people", Json.arr people), ("relationships", Json.arr rels)])

/-- One iteration of the person-validation loop of `validate_pedigree`:
either a failure message, or the id value to add to `person_ids`. -/
def validatePerson (person : Json) : Py (Sum String Int) := do
  match person with
  | .obj kvs =>
    if ¬ (hasKey kvs "id" ∧ hasKey kvs "name" ∧ hasKey kvs "gender" ∧
          hasKey kvs "dob" ∧ hasKey kvs "conditions") then
      pure (.inl "Person missing required keys")
    else do
      let idVal := (lookupKey kvs "id").getD Json.null
      if ¬ isInstInt idVal then
        pure (.inl "Person id must be an integer")
      else do
        let genderVal := (lookupKey kvs "gender").getD Json.null
        let genderOk ← pyMemStrSet genderVal ALLOWED_GENDERS
        if ¬ genderOk then
          pure (.inl ("Unsupported gender value: " ++ pyStrOf genderVal))
        else do
          let dobVal := (lookupKey kvs "dob").getD Json.null
          let dobOk ← _is_valid_dob dobVal
          if ¬ dobOk then
            pure (.inl ("Invalid dob: " ++ pyStrOf dobVal))
          else
            if ¬ isInstList ((lookupKey kvs "conditions").getD Json.null) then
              pure (.inl "conditions must be a list")
            else
              pure (.inr ((pyIntVal idVal).getD 0))
  | _ => pure (.inl "Each person must be an object")

/-- The person loop of `validate_pedigree`, accumulating `person_ids`
(as the integers the stored id values compare equal to). -/
def validatePeopleLoop : List Json → List Int → Py (Sum String (List Int))
  | [], ids => pure (.inr ids)
  | person :: rest, ids => do
    match ← validatePerson person with
    | .inl err => pure (.inl err)
    | .inr n => validatePeopleLoop rest (ids ++ [n])

/-- The relationship loop of `validate_pedigree`: each relationship is
alternate-key normalized, then its endpoints are checked against
`person_ids` and its type against `ALLOWED_RELATIONSHIP_TYPES`. -/
def validateRelsLoop : List Json → List Int → Py (Option String)
  | [], _ => pure none
  | rel :: rest, ids => do
    let normalizedRel ← _normalize_relationship rel
    let fromVal ← pyGetItem normalizedRel "from"
    let toVal ← pyGetItem normalizedRel "to"
    let fromMem ← pyMemIntSet fromVal ids
    let toMem ← pyMemIntSet toVal ids
    if ¬ (fromMem ∧ toMem) then
      pure (some "Relationship references unknown person id")
    else do
      let tyVal ← pyGetItem normalizedRel "type"
      let tyMem ← pyMemStrSet tyVal ALLOWED_RELATIONSHIP_TYPES
      if ¬ tyMem then
        pure (some ("Unsupported relationship type: " ++ pyStrOf tyVal))
      else
        validateRelsLoop rest ids

/-- `validate_pedigree` from `pedigree_builder.py`. -/
def validate_pedigree (pedigree : Json) : Py (Bool × Option String) := do
  match pedigree with
  | .obj kvs =>
    if ¬ (hasKey kvs "people" ∧ hasKey kvs "relationships") then
      pure (false, some "Pedigree must include required keys")
    else do
      let peopleItems ← pyIter ((lookupKey kvs "people").getD Json.null)
      match ← validatePeopleLoop peopleItems [] with
      | .inl err => pure (false, some err)
      | .inr personIds => do
        let relItems ← pyIter ((lookupKey kvs "relationships").getD Json.null)
        match ← validateRelsLoop relItems personIds with
        | some err => pure (false, some err)
        | none => pure (true, none)
  | _ => pure (false, some "Pedigree must be a JSON object")

/-- Outcome of `load_json_payload`: a returned pedigree, a raised
`PedigreeValidationError`, or an escaping Python-level exception. -/
inductive LoadResult where
  | ok (pedigree : Json) : LoadResult
  | validationError (msg : String) : LoadResult
  | pythonError (e : PyError) : LoadResult

/-- `load_json_payload` from `pedigree_builder.py`.  The argument is the
outcome of `json.loads(payload)`: a parsed value, or a parse diagnostic.
On parse failure it raises `PedigreeValidationError` wrapping the
diagnostic; otherwise it normalizes, validates, and either returns the
normalized pedigree or raises `PedigreeValidationError` with the
validation reason (`error or "Unknown validation error"`).  Exceptions
raised inside normalization or validation escape unwrapped. -/
def load_json_payload (parsed : Except String Json) : LoadResult :=
  match parsed with
  | .error diagnostic => .validationError ("Invalid JSON payload: " ++ diagnostic)
  | .ok payload =>
    match normalize_pedigree payload with
    | .error e => .pythonError e
    | .ok normalized =>
      match validate_pedigree normalized with
      | .error e => .pythonError e
      | .ok (true, _) => .ok normalized
      | .ok (false, some err) =>
        .validationError (if err = "" then "Unknown validation error" else err)
      | .ok (false, none) => .validationError "Unknown validation error"

/-- `pseudonymize_pedigree` from `data_extractor.py`: a JSON round-trip
deep copy (the identity on JSON-representable values), then every person
in the `people` entry gets `person["name"] = "Person-" + str(person["id"])`.
If the `people` entry is a non-list iterable its iteration copies are
mutated and dropped (matching the in-place loop mutating list elements
only when `people` is a list). -/
def pseudonymize_pedigree (pedigree : Json) : Py Json := do
  let peopleVal ← pyDictGet pedigree "people" (Json.arr [])
  let rename := fun (person : Json) => do
    let idVal ← pyGetItem person "id"
    pySetItem person "name" (Json.str ("Person-" ++ pyStrOf idVal))
  match pedigree, peopleVal with
  | .obj kvs, .arr items => do
    let items' ← mapPy rename items
    pure (Json.obj (setKey kvs "people" (Json.arr items')))
  | _, _ => do
    let items ← pyIter peopleVal
    let _ ← mapPy rename items
    pure pedigree

/-- A person of a canonical (schema-valid, normalized) pedigree, carrying
the fields `validate_pedigree` requires.  The analysis engine consumes
pedigrees of this shape (its condition names are strings, as the canonical
schema intends). -/
structure PersonR where
  id : Int
  name : String
  gender : String
  dob : String
  conditions : List String
  deriving DecidableEq

/-- A canonical relationship: a directed typed edge. -/
structure RelR where
  fromId : Int
  toId : Int
  rtype : String
  deriving DecidableEq

/-- A canonical pedigree, as consumed by `analysis_engine.py`. -/
structure PedigreeR where
  people : List PersonR
  relationships : List RelR
  deriving DecidableEq

/-- Insertion-ordered dict update for integer-like keys (`dict.__setitem__`:
replace in place or append). -/
def setAssoc {κ α : Type} [DecidableEq κ] : List (κ × α) → κ → α → List (κ × α)
  | [], key, v => [(key, v)]
  | (k, w) :: rest, key, v =>
    if k = key then (k, v) :: rest else (k, w) :: setAssoc rest key v

/-- First-match association lookup (Python dict access). -/
def getAssoc {κ α : Type} [DecidableEq κ] : List (κ × α) → κ → Option α
  | [], _ => none
  | (k, w) :: rest, key => if k = key then some w else getAssoc rest key

/-- The `_FallbackDiGraph` of `analysis_engine.py`: insertion-ordered node
dict (node id to its person attributes) and edge dict (endpoint pair to the
`type` attribute). -/
structure FallbackDiGraph where
  nodes_data : List (Int × PersonR)
  edge_data : List ((Int × Int) × String)
  deriving DecidableEq

/-- `_FallbackDiGraph.add_node`. -/
def addNode (g : FallbackDiGraph) (node : Int) (attrs : PersonR) : FallbackDiGraph :=
  { g with nodes_data := setAssoc g.nodes_data node attrs }

/-- `_FallbackDiGraph.add_edge` (a repeated endpoint pair overwrites). -/
def addEdge (g : FallbackDiGraph) (u v : Int) (ty : String) : FallbackDiGraph :=
  { g with edge_data := setAssoc g.edge_data (u, v) ty }

/-- `_FallbackDiGraph.number_of_nodes`. -/
def number_of_nodes (g : FallbackDiGraph) : Nat := g.nodes_data.length

/-- `_FallbackDiGraph.successors`: the targets of the outgoing edges of a
node, in edge-dict insertion order. -/
def _successors (g : FallbackDiGraph) (node : Int) : List Int :=
  (g.edge_data.filter fun e => e.1.1 = node).map fun e => e.1.2

/-- `_has_edge_with_type` of `analysis_engine.py` (fallback branch):
the edge exists and its `type` attribute equals the requested type. -/
def _has_edge_with_type (g : FallbackDiGraph) (u v : Int) (ty : String) : Bool :=
  match getAssoc g.edge_data (u, v) with
  | some t => t = ty
  | none => false

/-- `build_graph` of `analysis_engine.py`: one node per person (keyed by
its id, carrying the person as attributes), one directed typed edge per
relationship. -/
def build_graph (p : PedigreeR) : FallbackDiGraph :=
  let g := p.people.foldl (fun g person => addNode g person.id person) ⟨[], []⟩
  p.relationships.foldl (fun g rel => addEdge g rel.fromId rel.toId rel.rtype) g

/-- One `add` into the undirected adjacency dict of
`_build_cycle_basis_fallback` (`adj.setdefault(u, set()).add(v)`); the
neighbour sets are modelled as insertion-ordered duplicate-free lists. -/
def adjAddDir : List (Int × List Int) → Int → Int → List (Int × List Int)
  | [], u, v => [(u, [v])]
  | (k, s) :: rest, u, v =>
    if k = u then (k, if s.contains v then s else s ++ [v]) :: rest
    else (k, s) :: adjAddDir rest u v

/-- The undirected adjacency structure `_build_cycle_basis_fallback`
computes: one (initially empty) neighbour set per node, then both
directions of every edge. -/
def buildAdj (g : FallbackDiGraph) : List (Int × List Int) :=
  let init := g.nodes_data.map fun kv => (kv.1, ([] : List Int))
  g.edge_data.foldl (fun adj e => adjAddDir (adjAddDir adj e.1.1 e.1.2) e.1.2 e.1.1) init

/-- The keys of an adjacency dict, in insertion order. -/
def adjKeys (adj : List (Int × List Int)) : List Int := adj.map Prod.fst

/-- `adj[cur]` (defaulting to the empty neighbour set for a missing key;
in `_build_cycle_basis_fallback` every visited node is a key). -/
def adjLookup : List (Int × List Int) → Int → List Int
  | [], _ => []
  | (k, s) :: rest, key => if k = key then s else adjLookup rest key

/-- Membership in the `parent` dict of the fallback search. -/
def isKeyOf (parent : List (Int × Option Int)) (x : Int) : Bool :=
  parent.any fun e => e.1 = x

/-- The inner neighbour loop of `_build_cycle_basis_fallback`: for each
neighbour of `cur`, skip the tree parent, report a 2-node cycle for an
already-discovered neighbour, and otherwise discover the neighbour (record
its parent and push it).  The stack is modelled top-first, so Python's
`stack.append`/`stack.pop()` become cons/head. -/
def processNbrs (cur : Int) (par : Option Int) :
    List Int → List (Int × Option Int) → List (Int × Option Int) → List (List Int) →
    List (Int × Option Int) × List (Int × Option Int) × List (List Int)
  | [], parent, stack, cycles => (parent, stack, cycles)
  | nbr :: rest, parent, stack, cycles =>
    if some nbr = par then processNbrs cur par rest parent stack cycles
    else if isKeyOf parent nbr then
      processNbrs cur par rest parent stack (cycles ++ [[cur, nbr]])
    else
      processNbrs cur par rest (parent ++ [(nbr, some cur)]) ((nbr, some cur) :: stack) cycles

/-- The `while stack:` loop of `_build_cycle_basis_fallback`. -/
def dfsLoop (adj : List (Int × List Int)) :
    List (Int × Option Int) → List (Int × Option Int) → List Int → List (List Int) →
    List Int × List (List Int)
  | stack, parent, visited, cycles =>
    match stack with
    | [] => (visited, cycles)
    | (cur, par) :: rest =>
      if cur ∈ visited then dfsLoop adj rest parent visited cycles
      else
        let r := processNbrs cur par (adjLookup adj cur) parent rest cycles
        dfsLoop adj r.2.1 r.1 (cur :: visited) r.2.2
termination_by stack _ visited _ =>
  (((adjKeys adj).toFinset \ visited.toFinset).card, stack.length)
decreasing_by
  · exact Prod.Lex.right _ (Nat.lt_succ_self _)
  · show Prod.Lex (· < ·) (· < ·) _ _
    by_cases hk : cur ∈ adjKeys adj
    · apply Prod.Lex.left
      apply Finset.card_lt_card
      constructor
      · intro x hx
        simp only [Finset.mem_sdiff, List.mem_toFinset, List.mem_cons] at hx ⊢
        exact ⟨hx.1, fun hv => hx.2 (Or.inr hv)⟩
      · intro hsub
        have hcur : cur ∈ (adjKeys adj).toFinset \ visited.toFinset := by
          simp only [Finset.mem_sdiff, List.mem_toFinset]
          exact ⟨hk, by assumption⟩
        have := hsub hcur
        simp only [Finset.mem_sdiff, List.mem_toFinset, List.mem_cons] at this
        exact this.2 (Or.inl trivial)
    · have hnil : adjLookup adj cur = [] := by
        clear * - hk
        induction adj with
        | nil => rfl
        | cons hd tl ih =>
          simp only [adjKeys, List.map_cons, List.mem_cons] at hk
          push_neg at hk
          simpa [adjLookup, hk.1, Ne.symm hk.1] using ih (by simpa [adjKeys] using hk.2)
      have hfst : ((adjKeys adj).toFinset \ (cur :: visited).toFinset).card =
          ((adjKeys adj).toFinset \ visited.toFinset).card := by
        congr 1
        apply Finset.ext
        intro x
        simp only [Finset.mem_sdiff, List.mem_toFinset, List.mem_cons]
        constructor
        · intro hx
          exact ⟨hx.1, fun hv => hx.2 (Or.inr hv)⟩
        · intro hx
          refine ⟨hx.1, fun hv => ?_⟩
          rcases hv with h | h
          · exact hk (h ▸ hx.1)
          · exact hx.2 h
      rw [hnil]
      show Prod.Lex (· < ·) (· < ·)
        (((adjKeys adj).toFinset \ (cur :: visited).toFinset).card, rest.length) _
      rw [hfst]
      exact Prod.Lex.right _ (Nat.lt_succ_self _)

/-- The outer `for node in adj:` loop of `_build_cycle_basis_fallback`:
start a fresh search from every not-yet-visited key. -/
def dfsOuter (adj : List (Int × List Int)) :
    List Int → List Int → List (List Int) → List Int × List (List Int)
  | [], visited, cycles => (visited, cycles)
  | node :: rest, visited, cycles =>
    if node ∈ visited then dfsOuter adj rest visited cycles
    else
      let r := dfsLoop adj [(node, none)] [(node, none)] visited cycles
      dfsOuter adj rest r.1 r.2

/-- `_build_cycle_basis_fallback` from `analysis_engine.py`. -/
def _build_cycle_basis_fallback (g : FallbackDiGraph) : List (List Int) :=
  let adj := buildAdj g
  (dfsOuter adj (adjKeys adj) [] []).2

/-- Python `round(x, 4)`: the nearest multiple of 1/10000 (the verified
facts below are insensitive to the tie-breaking convention, which is where
Python's float rounding differs from `round`). -/
def roundTo4 (q : ℚ) : ℚ := (round (q * 10000) : ℚ) / 10000

/-- `estimate_inbreeding` from `analysis_engine.py` (fallback backend,
the in-repository code path): sum of the lengths of the reported cycles,
divided by `max(1, number_of_nodes)`, scaled by `0.03125`, clamped to
`0.25` and rounded to 4 decimal places; `0.0` when no cycle is found.
Arithmetic is modelled exactly over `ℚ`. -/
def estimate_inbreeding (g : FallbackDiGraph) : ℚ :=
  let cycles := _build_cycle_basis_fallback g
  if cycles = [] then 0
  else
    roundTo4 (min 0.25
      (((cycles.map List.length).sum : ℚ) / (max 1 (number_of_nodes g) : ℕ) * 0.03125))

/-- One `mapping.setdefault(condition.lower(), []).append(person["id"])`
step of `_condition_to_people`. -/
def condAdd : List (String × List Int) → String → Int → List (String × List Int)
  | [], c, i => [(c, [i])]
  | (k, v) :: rest, c, i =>
    if k = c then (k, v ++ [i]) :: rest else (k, v) :: condAdd rest c i

/-- `_condition_to_people` from `analysis_engine.py`: lower-cased condition
name to the ids of the people carrying it, in encounter order. -/
def _condition_to_people (p : PedigreeR) : List (String × List Int) :=
  p.people.foldl
    (fun m person => person.conditions.foldl (fun m c => condAdd m (lowerStr c) person.id) m)
    []

/-- Substring check helper: does the needle start the haystack? -/
def leadEq : List Char → List Char → Bool
  | [], _ => true
  | _ :: _, [] => false
  | a :: as, b :: bs => a = b && leadEq as bs

/-- Python `needle in hay` on strings (substring containment), on
character lists. -/
def subOf (nd : List Char) : List Char → Bool
  | [] => leadEq nd []
  | b :: t => leadEq nd (b :: t) || subOf nd t

/-- Python `needle in hay` on strings. -/
def strHasSub (nd hay : String) : Bool := subOf nd.data hay.data

/-- The per-condition sibling-pair count of `infer_inheritance_patterns`:
ordered pairs `i < j` drawn from the affected list joined by a
`sibling`-typed edge directed from `i` to `j`. -/
def siblingPairs (g : FallbackDiGraph) (ids : List Int) : Nat :=
  (ids.map fun i =>
    (ids.filter fun j => i < j ∧ _has_edge_with_type g i j "sibling").length).sum

/-- The per-condition parent/child hit count of
`infer_inheritance_patterns`: successors of an affected person that are
affected and joined by a `parent`- or `child`-typed edge. -/
def parentChildHits (g : FallbackDiGraph) (ids : List Int) : Nat :=
  (ids.map fun i =>
    ((_successors g i).filter fun nbr =>
      ids.contains nbr ∧
        (_has_edge_with_type g i nbr "parent" ∨ _has_edge_with_type g i nbr "child")).length).sum

/-- The flags contributed by one entry of the condition map. -/
def flagsForCondition (g : FallbackDiGraph) (entry : String × List Int) : List String :=
  (if 2 ≤ entry.2.length ∧ 1 ≤ siblingPairs g entry.2 then
    ["Autosomal recessive pattern possible for " ++ entry.1]
  else []) ++
  (if 1 ≤ parentChildHits g entry.2 then
    ["Autosomal dominant transmission possible for " ++ entry.1]
  else [])

/-- Ordered insertion into a lexicographically sorted list of strings. -/
def insertSorted (a : String) : List String → List String
  | [] => [a]
  | b :: t => if a ≤ b then a :: b :: t else b :: insertSorted a t

/-- Insertion sort on strings (on a duplicate-free list, the sorted result
is unique, so this is exactly Python's `sorted`). -/
def sortStrings : List String → List String
  | [] => []
  | a :: t => insertSorted a (sortStrings t)

/-- `sorted(set(flags))`: deduplicate, then sort lexicographically. -/
def sortedFlagSet (flags : List String) : List String :=
  sortStrings flags.dedup

/-- `infer_inheritance_patterns` from `analysis_engine.py`. -/
def infer_inheritance_patterns (g : FallbackDiGraph) (p : PedigreeR) : List String :=
  let flags := (_condition_to_people p).foldl (fun fl entry => fl ++ flagsForCondition g entry) []
  let flags := if flags = [] then ["No clear inheritance pattern detected from available data"] else flags
  sortedFlagSet flags

/-- `_risk_bucket` from `analysis_engine.py` (thresholds `0.0625` and
`0.015625`; case-insensitive substring match on the flags). -/
def _risk_bucket (inbreeding : ℚ) (flags : List String) : String :=
  if 0.0625 < inbreeding ∨ flags.any fun f => strHasSub "dominant" (lowerStr f) then "High"
  else if 0.015625 < inbreeding ∨ flags.any fun f => strHasSub "recessive" (lowerStr f) then "Moderate"
  else "Low"

/-- The result record of `analyze_pedigree`. -/
structure AnalysisResult where
  inbreeding_coefficient : ℚ
  inheritance_flags : List String
  risk_level : String
  recommendations : List String
  deriving DecidableEq

/-- `analyze_pedigree` from `analysis_engine.py`. -/
def analyze_pedigree (p : PedigreeR) : AnalysisResult :=
  let graph := build_graph p
  let inbreeding := estimate_inbreeding graph
  let flags := infer_inheritance_patterns graph p
  let risk := _risk_bucket inbreeding flags
  let recommendations :=
    ["This tool is not medical advice; review with a licensed genetic counselor.",
     "Consider confirmatory genetic testing if there are multiple affected relatives."] ++
    (if risk = "High" then ["Recommend expedited specialist referral and targeted screening."]
     else if risk = "Moderate" then
       ["Recommend non-urgent genetics referral and family-wide history validation."]
     else [])
  { inbreeding_coefficient := inbreeding
    inheritance_flags := flags
    risk_level := risk
    recommendations := recommendations }

/-- Rank of a risk bucket under the ordering Low < Moderate < High. -/
def bucketRank (s : String) : Nat :=
  if s = "High" then 2 else if s = "Moderate" then 1 else 0

/-- The high-risk condition of `_risk_bucket`. -/
def highCond (inbreeding : ℚ) (flags : List String) : Prop :=
  0.0625 < inbreeding ∨ (flags.any fun f => strHasSub "dominant" (lowerStr f)) = true

/-- The moderate-risk condition of `_risk_bucket`. -/
def moderateCond (inbreeding : ℚ) (flags : List String) : Prop :=
  0.015625 < inbreeding ∨ (flags.any fun f => strHasSub "recessive" (lowerStr f)) = true

instance (q : ℚ) (flags : List String) : Decidable (highCond q flags) := by
  unfold highCond; infer_instance

instance (q : ℚ) (flags : List String) : Decidable (moderateCond q flags) := by
  unfold moderateCond; infer_instance

theorem risk_bucket_eq (q : ℚ) (flags : List String) :
    _risk_bucket q flags =
      if highCond q flags then "High"
      else if moderateCond q flags then "Moderate" else "Low" := rfl

theorem bucketRank_le_two (s : String) : bucketRank s ≤ 2 := by
  unfold bucketRank; split_ifs <;> omega

/-- C7: riskBucket is monotone in the inbreeding score for fixed flags
(under Low < Moderate < High), and the buckets are characterized exactly:
High iff the score exceeds 0.0625 or some flag contains "dominant"
case-insensitively; otherwise Moderate iff the score exceeds 0.015625 or
some flag contains "recessive" case-insensitively; otherwise Low. -/
theorem risk_bucket_monotone_and_thresholds (flags : List String) (s1 s2 : ℚ) (h : s1 ≤ s2) :
    bucketRank (_risk_bucket s1 flags) ≤ bucketRank (_risk_bucket s2 flags) ∧
    (_risk_bucket s2 flags = "High" ↔ highCond s2 flags) ∧
    (¬ highCond s2 flags →
      (_risk_bucket s2 flags = "Moderate" ↔ moderateCond s2 flags)) ∧
    (¬ highCond s2 flags → ¬ moderateCond s2 flags → _risk_bucket s2 flags = "Low") := by
  have hmonoH : highCond s1 flags → highCond s2 flags := by
    intro hc
    rcases hc with hc | hc
    · exact Or.inl (lt_of_lt_of_le hc h)
    · exact Or.inr hc
  have hmonoM : moderateCond s1 flags → moderateCond s2 flags := by
    intro hc
    rcases hc with hc | hc
    · exact Or.inl (lt_of_lt_of_le hc h)
    · exact Or.inr hc
  refine ⟨?_, ?_, ?_, ?_⟩
  · rw [risk_bucket_eq, risk_bucket_eq]
    by_cases h2 : highCond s2 flags
    · simp only [h2, if_true]
      have : bucketRank "High" = 2 := by unfold bucketRank; simp
      rw [this]
      exact le_trans (bucketRank_le_two _) (le_refl 2)
    · have h1 : ¬ highCond s1 flags := fun hc => h2 (hmonoH hc)
      simp only [h1, h2, if_false]
      by_cases m2 : moderateCond s2 flags
      · simp only [m2, if_true]
        have hM : bucketRank "Moderate" = 1 := by unfold bucketRank; simp
        rw [hM]
        by_cases m1 : moderateCond s1 flags
        · simp [m1, hM]
        · simp only [m1, if_false]
          unfold bucketRank; simp
      · have m1 : ¬ moderateCond s1 flags := fun hc => m2 (hmonoM hc)
        simp [m1, m2]
  · rw [risk_bucket_eq]
    by_cases h2 : highCond s2 flags
    · simp [h2]
    · by_cases m2 : moderateCond s2 flags <;> simp [h2, m2]
  · intro h2
    rw [risk_bucket_eq]
    by_cases m2 : moderateCond s2 flags <;> simp [h2, m2]
  · intro h2 m2
    rw [risk_bucket_eq]
    simp [h2, m2]

/-- Witness for C7 at a concrete pair of scores and flag list. -/
theorem risk_bucket_monotone_witness :
    bucketRank (_risk_bucket 0 ["x"]) ≤ bucketRank (_risk_bucket 1 ["x"]) :=
  (risk_bucket_monotone_and_thresholds ["x"] 0 1 (by norm_num)).1

/-- The recessive flag emitted for a condition. -/
def recFlag (c : String) : String := "Autosomal recessive pattern possible for " ++ c

/-- The dominant flag emitted for a condition. -/
def domFlag (c : String) : String := "Autosomal dominant transmission possible for " ++ c

/-- The sentinel flag emitted when no pattern is detected. -/
def sentinelFlag : String := "No clear inheritance pattern detected from available data"

theorem foldl_flags_eq_join (g : FallbackDiGraph) (entries : List (String × List Int))
    (acc : List String) :
    entries.foldl (fun fl e => fl ++ flagsForCondition g e) acc =
      acc ++ (entries.map (flagsForCondition g)).flatten := by
  induction entries generalizing acc with
  | nil => simp
  | cons e rest ih => simp [ih, List.append_assoc]

theorem mem_insertSorted (x a : String) (l : List String) :
    x ∈ insertSorted a l ↔ x = a ∨ x ∈ l := by
  induction l with
  | nil => simp [insertSorted]
  | cons b t ih =>
    unfold insertSorted
    by_cases h : a ≤ b
    · simp [h]
    · simp only [h, if_false, List.mem_cons, ih]
      tauto

theorem mem_sortStrings (x : String) (l : List String) : x ∈ sortStrings l ↔ x ∈ l := by
  induction l with
  | nil => simp [sortStrings]
  | cons a t ih =>
    unfold sortStrings
    rw [mem_insertSorted, ih, List.mem_cons]

theorem mem_sortedFlagSet (a : String) (l : List String) : a ∈ sortedFlagSet l ↔ a ∈ l := by
  unfold sortedFlagSet
  rw [mem_sortStrings, List.mem_dedup]

theorem condAdd_keys (m : List (String × List Int)) (c : String) (i : Int) :
    (condAdd m c i).map Prod.fst =
      if c ∈ m.map Prod.fst then m.map Prod.fst else m.map Prod.fst ++ [c] := by
  induction m with
  | nil => simp [condAdd]
  | cons kv rest ih =>
    by_cases h : kv.1 = c
    · simp [condAdd, h]
    · simp only [condAdd, h, if_false, List.map_cons, List.mem_cons]
      rw [ih]
      by_cases hm : c ∈ rest.map Prod.fst
      · simp [hm, Ne.symm h]
      · simp [hm, Ne.symm h]

theorem condAdd_keys_nodup (m : List (String × List Int)) (c : String) (i : Int)
    (h : (m.map Prod.fst).Nodup) : ((condAdd m c i).map Prod.fst).Nodup := by
  rw [condAdd_keys]
  by_cases hm : c ∈ m.map Prod.fst
  · simpa [hm] using h
  · simp only [hm, if_false]
    exact List.Nodup.append h (List.nodup_singleton c) (by simpa using hm)

theorem condFold_keys_nodup (conds : List String) (pid : Int)
    (m : List (String × List Int)) (h : (m.map Prod.fst).Nodup) :
    ((conds.foldl (fun m c => condAdd m (lowerStr c) pid) m).map Prod.fst).Nodup := by
  induction conds generalizing m with
  | nil => exact h
  | cons c rest ih => exact ih _ (condAdd_keys_nodup _ _ _ h)

theorem condition_to_people_keys_nodup (p : PedigreeR) :
    ((_condition_to_people p).map Prod.fst).Nodup := by
  unfold _condition_to_people
  generalize hm : ([] : List (String × List Int)) = m
  have hnd : (m.map Prod.fst).Nodup := by rw [← hm]; simp
  clear hm
  induction p.people generalizing m with
  | nil => exact hnd
  | cons person rest ih => exact ih _ (condFold_keys_nodup _ _ _ hnd)

theorem assoc_mem_unique {m : List (String × List Int)} {c : String} {v1 v2 : List Int}
    (hnd : (m.map Prod.fst).Nodup) (h1 : (c, v1) ∈ m) (h2 : (c, v2) ∈ m) : v1 = v2 := by
  induction m with
  | nil => cases h1
  | cons kv rest ih =>
    simp only [List.map_cons, List.nodup_cons] at hnd
    rcases List.mem_cons.1 h1 with h1' | h1' <;> rcases List.mem_cons.1 h2 with h2' | h2'
    · exact (by simpa using h1'.trans h2'.symm : c = c ∧ v1 = v2).2
    · exfalso
      have hc : kv.1 = c := by rw [← h1']
      rw [hc] at hnd
      exact hnd.1 (List.mem_map.2 ⟨_, h2', rfl⟩)
    · exfalso
      have hc : kv.1 = c := by rw [← h2']
      rw [hc] at hnd
      exact hnd.1 (List.mem_map.2 ⟨_, h1', rfl⟩)
    · exact ih hnd.2 h1' h2'

theorem string_append_left_cancel {s t u : String} (h : s ++ t = s ++ u) : t = u := by
  have hd : s.data ++ t.data = s.data ++ u.data := by
    have := congrArg String.data h
    simpa using this
  exact String.ext (List.append_cancel_left hd)

theorem recFlag_inj {c c' : String} (h : recFlag c = recFlag c') : c = c' :=
  string_append_left_cancel h

theorem domFlag_inj {c c' : String} (h : domFlag c = domFlag c') : c = c' :=
  string_append_left_cancel h

theorem string_append_ne_of_getElem {s1 s2 : String} (t1 t2 : String) (n : Nat)
    (h1 : n < s1.data.length) (h2 : n < s2.data.length)
    (hne : s1.data[n]? ≠ s2.data[n]?) : s1 ++ t1 ≠ s2 ++ t2 := by
  intro h
  have hd := congrArg String.data h
  simp only [String.data_append] at hd
  apply hne
  have e1 : (s1.data ++ t1.data)[n]? = s1.data[n]? := by
    rw [List.getElem?_append, if_pos h1]
  have e2 : (s2.data ++ t2.data)[n]? = s2.data[n]? := by
    rw [List.getElem?_append, if_pos h2]
  rw [← e1, ← e2, hd]

theorem recFlag_ne_domFlag (c c' : String) : recFlag c ≠ domFlag c' := by
  unfold recFlag domFlag
  exact string_append_ne_of_getElem _ _ 10 (by decide) (by decide) (by decide)

theorem sentinel_ne_recFlag (c : String) : sentinelFlag ≠ recFlag c := by
  unfold sentinelFlag recFlag
  have : "No clear inheritance pattern detected from available data" =
      "No clear inheritance pattern detected from available data" ++ "" := rfl
  rw [this]
  exact string_append_ne_of_getElem _ _ 0 (by decide) (by decide) (by decide)

theorem sentinel_ne_domFlag (c : String) : sentinelFlag ≠ domFlag c := by
  unfold sentinelFlag domFlag
  have : "No clear inheritance pattern detected from available data" =
      "No clear inheritance pattern detected from available data" ++ "" := rfl
  rw [this]
  exact string_append_ne_of_getElem _ _ 0 (by decide) (by decide) (by decide)

theorem mem_flagsForCondition (g : FallbackDiGraph) (e : String × List Int) (flag : String) :
    flag ∈ flagsForCondition g e ↔
      (flag = recFlag e.1 ∧ 2 ≤ e.2.length ∧ 1 ≤ siblingPairs g e.2) ∨
      (flag = domFlag e.1 ∧ 1 ≤ parentChildHits g e.2) := by
  unfold flagsForCondition recFlag domFlag
  split_ifs with h1 h2 h2
  · simp only [List.mem_append, List.mem_singleton]
    constructor
    · rintro (h | h)
      · exact Or.inl ⟨h, h1.1, h1.2⟩
      · exact Or.inr ⟨h, h2⟩
    · rintro (⟨h, -, -⟩ | ⟨h, -⟩)
      · exact Or.inl h
      · exact Or.inr h
  · simp only [List.append_nil, List.mem_singleton]
    constructor
    · intro h; exact Or.inl ⟨h, h1.1, h1.2⟩
    · rintro (⟨h, -, -⟩ | ⟨-, hc⟩)
      · exact h
      · exact absurd hc h2
  · simp only [List.nil_append, List.mem_singleton]
    constructor
    · intro h; exact Or.inr ⟨h, h2⟩
    · rintro (⟨-, ha, hc⟩ | ⟨h, -⟩)
      · exact absurd (And.intro ha hc) h1
      · exact h
  · simp only [List.append_nil, List.not_mem_nil, false_iff]
    rintro (⟨-, ha, hb⟩ | ⟨-, hc⟩)
    · exact h1 ⟨ha, hb⟩
    · exact h2 hc

theorem one_le_sum_iff (l : List Nat) : 1 ≤ l.sum ↔ ∃ x ∈ l, 1 ≤ x := by
  induction l with
  | nil => simp
  | cons a t ih =>
    simp only [List.sum_cons, List.mem_cons]
    constructor
    · intro h
      by_cases ha : 1 ≤ a
      · exact ⟨a, Or.inl rfl, ha⟩
      · have ht : 1 ≤ t.sum := by omega
        obtain ⟨x, hx, h1⟩ := ih.1 ht
        exact ⟨x, Or.inr hx, h1⟩
    · rintro ⟨x, rfl | hx, h1⟩
      · omega
      · have := ih.2 ⟨x, hx, h1⟩
        omega

theorem siblingPairs_pos_iff (g : FallbackDiGraph) (ids : List Int) :
    1 ≤ siblingPairs g ids ↔
      ∃ i ∈ ids, ∃ j ∈ ids, i < j ∧ _has_edge_with_type g i j "sibling" = true := by
  unfold siblingPairs
  rw [one_le_sum_iff]
  constructor
  · rintro ⟨x, hx, h1⟩
    obtain ⟨i, hi, rfl⟩ := List.mem_map.1 hx
    have hne : ¬ (ids.filter fun j =>
        decide (i < j ∧ _has_edge_with_type g i j "sibling" = true)) = [] := by
      intro hnil
      rw [hnil] at h1
      simp at h1
    obtain ⟨j, hj⟩ := List.exists_mem_of_ne_nil _ hne
    have hm := List.mem_filter.1 hj
    have hprop := of_decide_eq_true hm.2
    exact ⟨i, hi, j, hm.1, hprop.1, hprop.2⟩
  · rintro ⟨i, hi, j, hj, hlt, hedge⟩
    refine ⟨(ids.filter fun j =>
      decide (i < j ∧ _has_edge_with_type g i j "sibling" = true)).length,
      List.mem_map.2 ⟨i, hi, rfl⟩, ?_⟩
    have hjf : j ∈ ids.filter fun j =>
        decide (i < j ∧ _has_edge_with_type g i j "sibling" = true) :=
      List.mem_filter.2 ⟨hj, decide_eq_true ⟨hlt, hedge⟩⟩
    have := List.length_pos.2 (List.ne_nil_of_mem hjf)
    omega

theorem parentChildHits_pos_iff (g : FallbackDiGraph) (ids : List Int) :
    1 ≤ parentChildHits g ids ↔
      ∃ i ∈ ids, ∃ nbr ∈ _successors g i, nbr ∈ ids ∧
        (_has_edge_with_type g i nbr "parent" = true ∨
          _has_edge_with_type g i nbr "child" = true) := by
  unfold parentChildHits
  rw [one_le_sum_iff]
  constructor
  · rintro ⟨x, hx, h1⟩
    obtain ⟨i, hi, rfl⟩ := List.mem_map.1 hx
    have hne : ¬ ((_successors g i).filter fun nbr =>
        decide (ids.contains nbr = true ∧
          (_has_edge_with_type g i nbr "parent" = true ∨
            _has_edge_with_type g i nbr "child" = true))) = [] := by
      intro hnil
      rw [hnil] at h1
      simp at h1
    obtain ⟨nbr, hnbr⟩ := List.exists_mem_of_ne_nil _ hne
    have hm := List.mem_filter.1 hnbr
    have hprop := of_decide_eq_true hm.2
    exact ⟨i, hi, nbr, hm.1, List.mem_of_elem_eq_true hprop.1, hprop.2⟩
  · rintro ⟨i, hi, nbr, hnbr, hmem, hedge⟩
    refine ⟨((_successors g i).filter fun nbr =>
      decide (ids.contains nbr = true ∧
        (_has_edge_with_type g i nbr "parent" = true ∨
          _has_edge_with_type g i nbr "child" = true))).length,
      List.mem_map.2 ⟨i, hi, rfl⟩, ?_⟩
    have hc : ids.contains nbr = true := List.elem_eq_true_of_mem hmem
    have hjf : nbr ∈ (_successors g i).filter fun nbr =>
        decide (ids.contains nbr = true ∧
          (_has_edge_with_type g i nbr "parent" = true ∨
            _has_edge_with_type g i nbr "child" = true)) :=
      List.mem_filter.2 ⟨hnbr, decide_eq_true (And.intro hc hedge)⟩
    have := List.length_pos.2 (List.ne_nil_of_mem hjf)
    omega

theorem mem_infer_iff (g : FallbackDiGraph) (p : PedigreeR) (flag : String) :
    flag ∈ infer_inheritance_patterns g p ↔
      (∃ e ∈ _condition_to_people p, flag ∈ flagsForCondition g e) ∨
      ((∀ e ∈ _condition_to_people p, flagsForCondition g e = []) ∧ flag = sentinelFlag) := by
  unfold infer_inheritance_patterns
  rw [foldl_flags_eq_join]
  simp only [List.nil_append]
  by_cases h0 : (List.map (flagsForCondition g) (_condition_to_people p)).flatten = []
  · have hall : ∀ e ∈ _condition_to_people p, flagsForCondition g e = [] := by
      intro e he
      have hflat : ∀ l ∈ List.map (flagsForCondition g) (_condition_to_people p), l = [] :=
        List.flatten_eq_nil_iff.1 h0
      exact hflat _ (List.mem_map.2 ⟨e, he, rfl⟩)
    rw [h0, if_pos rfl, mem_sortedFlagSet]
    simp only [List.mem_singleton]
    constructor
    · intro hf
      exact Or.inr ⟨hall, hf⟩
    · rintro (⟨e, he, hf⟩ | ⟨-, hf⟩)
      · rw [hall e he] at hf
        cases hf
      · exact hf
  · rw [if_neg h0, mem_sortedFlagSet, List.mem_flatten]
    constructor
    · rintro ⟨l, hl, hfl⟩
      obtain ⟨e, he, rfl⟩ := List.mem_map.1 hl
      exact Or.inl ⟨e, he, hfl⟩
    · rintro (⟨e, he, hf⟩ | ⟨hall, -⟩)
      · exact ⟨_, List.mem_map.2 ⟨e, he, rfl⟩, hf⟩
      · exact absurd (List.flatten_eq_nil_iff.2 (by
          intro l hl
          obtain ⟨e, he, rfl⟩ := List.mem_map.1 hl
          exact hall e he)) h0

/-- C2 (amended): for every pedigree and every entry `(c, ids)` of the
condition-to-affected map, the recessive flag for `c` is emitted exactly
when `ids` has at least 2 entries and some pair `i < j` of affected ids is
joined by a sibling-typed edge directed from the lower id `i` to the
higher id `j` (the reverse direction is NOT inspected); and the dominant
flag for `c` is emitted exactly when some affected person has an outgoing
parent- or child-typed edge to an affected person — including itself via
a self-loop, with no two-affected-person minimum. -/
theorem infer_patterns_flag_characterization (p : PedigreeR) (c : String) (ids : List Int)
    (hmem : (c, ids) ∈ _condition_to_people p) :
    (recFlag c ∈ infer_inheritance_patterns (build_graph p) p ↔
      2 ≤ ids.length ∧ ∃ i ∈ ids, ∃ j ∈ ids, i < j ∧
        _has_edge_with_type (build_graph p) i j "sibling" = true) ∧
    (domFlag c ∈ infer_inheritance_patterns (build_graph p) p ↔
      ∃ i ∈ ids, ∃ nbr ∈ _successors (build_graph p) i, nbr ∈ ids ∧
        (_has_edge_with_type (build_graph p) i nbr "parent" = true ∨
          _has_edge_with_type (build_graph p) i nbr "child" = true)) := by
  have hnd := condition_to_people_keys_nodup p
  constructor
  · rw [mem_infer_iff]
    constructor
    · rintro (⟨e, he, hf⟩ | ⟨-, hf⟩)
      · rcases e with ⟨c', ids'⟩
        rcases (mem_flagsForCondition _ _ _).1 hf with ⟨heq, hlen, hsib⟩ | ⟨heq, -⟩
        · have hc : c = c' := recFlag_inj heq
          subst hc
          have hids : ids = ids' := assoc_mem_unique hnd hmem he
          rw [hids]
          exact ⟨hlen, (siblingPairs_pos_iff _ _).1 hsib⟩
        · exact absurd heq (recFlag_ne_domFlag _ _)
      · exact absurd hf.symm (sentinel_ne_recFlag c)
    · rintro ⟨hlen, hpair⟩
      refine Or.inl ⟨(c, ids), hmem, ?_⟩
      exact (mem_flagsForCondition _ _ _).2
        (Or.inl ⟨rfl, hlen, (siblingPairs_pos_iff _ _).2 hpair⟩)
  · rw [mem_infer_iff]
    constructor
    · rintro (⟨e, he, hf⟩ | ⟨-, hf⟩)
      · rcases e with ⟨c', ids'⟩
        rcases (mem_flagsForCondition _ _ _).1 hf with ⟨heq, -⟩ | ⟨heq, hhits⟩
        · exact absurd heq.symm (recFlag_ne_domFlag _ _)
        · have hc : c = c' := domFlag_inj heq
          subst hc
          have hids : ids = ids' := assoc_mem_unique hnd hmem he
          rw [hids]
          exact (parentChildHits_pos_iff _ _).1 hhits
      · exact absurd hf.symm (sentinel_ne_domFlag c)
    · intro hhit
      refine Or.inl ⟨(c, ids), hmem, ?_⟩
      exact (mem_flagsForCondition _ _ _).2
        (Or.inr ⟨rfl, (parentChildHits_pos_iff _ _).2 hhit⟩)

/-- Witness pedigree for the C2 characterization: two people sharing a
condition, joined by a parent-typed edge. -/
def pedDominantW : PedigreeR :=
  ⟨[⟨1, "A", "F", "approx", ["htn"]⟩, ⟨2, "B", "O", "approx", ["htn"]⟩],
   [⟨1, 2, "parent"⟩]⟩

/-- Witness for C2 at a concrete pedigree and condition entry. -/
theorem infer_patterns_flag_characterization_witness :
    (recFlag "htn" ∈ infer_inheritance_patterns (build_graph pedDominantW) pedDominantW ↔
      2 ≤ ([1, 2] : List Int).length ∧ ∃ i ∈ ([1, 2] : List Int), ∃ j ∈ ([1, 2] : List Int),
        i < j ∧ _has_edge_with_type (build_graph pedDominantW) i j "sibling" = true) ∧
    (domFlag "htn" ∈ infer_inheritance_patterns (build_graph pedDominantW) pedDominantW ↔
      ∃ i ∈ ([1, 2] : List Int), ∃ nbr ∈ _successors (build_graph pedDominantW) i,
        nbr ∈ ([1, 2] : List Int) ∧
        (_has_edge_with_type (build_graph pedDominantW) i nbr "parent" = true ∨
          _has_edge_with_type (build_graph pedDominantW) i nbr "child" = true)) :=
  infer_patterns_flag_characterization pedDominantW "htn" [1, 2] (by decide)

/-- Counterexample pedigree for C2 as originally claimed: two people
affected by condition "c", a sibling-typed edge directed from the higher
id 2 to the lower id 1, and a parent-typed self-loop on person 1. -/
def pedC2cx : PedigreeR :=
  ⟨[⟨1, "A", "F", "approx", ["c"]⟩, ⟨2, "B", "F", "approx", ["c"]⟩],
   [⟨2, 1, "sibling"⟩, ⟨1, 1, "parent"⟩]⟩

/-- Counterexample for C2: on `pedC2cx` the affected people 1 and 2 are
joined by a sibling-typed edge (in the 2→1 direction) yet NO recessive
flag is emitted, and the dominant flag IS emitted although no affected
person has an outgoing parent- or child-typed edge to a DISTINCT affected
person (the only such edge is the self-loop 1→1). -/
theorem infer_patterns_counterexample :
    infer_inheritance_patterns (build_graph pedC2cx) pedC2cx =
      ["Autosomal dominant transmission possible for c"] ∧
    _condition_to_people pedC2cx = [("c", [1, 2])] ∧
    _has_edge_with_type (build_graph pedC2cx) 2 1 "sibling" = true ∧
    (∀ i ∈ ([1, 2] : List Int), ∀ j ∈ ([1, 2] : List Int), i ≠ j →
      _has_edge_with_type (build_graph pedC2cx) i j "parent" = false ∧
      _has_edge_with_type (build_graph pedC2cx) i j "child" = false) := by
  refine ⟨?_, by decide, by decide, by decide⟩
  decide

theorem setAssoc_fst {κ α : Type} [DecidableEq κ] (m : List (κ × α)) (k : κ) (v : α) :
    (setAssoc m k v).map Prod.fst =
      if k ∈ m.map Prod.fst then m.map Prod.fst else m.map Prod.fst ++ [k] := by
  induction m with
  | nil => simp [setAssoc]
  | cons kv rest ih =>
    by_cases h : kv.1 = k
    · simp [setAssoc, h]
    · simp only [setAssoc, h, if_false, List.map_cons, List.mem_cons]
      rw [ih]
      by_cases hm : k ∈ rest.map Prod.fst
      · simp [hm, Ne.symm h]
      · simp [hm, Ne.symm h]

theorem foldl_addEdge_nodes (rels : List RelR) (g : FallbackDiGraph) :
    (rels.foldl (fun g rel => addEdge g rel.fromId rel.toId rel.rtype) g).nodes_data =
      g.nodes_data := by
  induction rels generalizing g with
  | nil => rfl
  | cons rel rest ih => exact ih _

theorem foldl_addEdge_edges (rels : List RelR) (g1 g2 : FallbackDiGraph)
    (h : g1.edge_data = g2.edge_data) :
    (rels.foldl (fun g rel => addEdge g rel.fromId rel.toId rel.rtype) g1).edge_data =
      (rels.foldl (fun g rel => addEdge g rel.fromId rel.toId rel.rtype) g2).edge_data := by
  induction rels generalizing g1 g2 with
  | nil => exact h
  | cons rel rest ih =>
    apply ih
    simp [addEdge, h]

theorem foldl_addNode_edges (ppl : List PersonR) (g : FallbackDiGraph) :
    (ppl.foldl (fun g person => addNode g person.id person) g).edge_data = g.edge_data := by
  induction ppl generalizing g with
  | nil => rfl
  | cons person rest ih => exact ih _

theorem foldl_addNode_keys (ppl1 ppl2 : List PersonR)
    (hF : List.Forall₂ (fun a b => a.id = b.id ∧ a.conditions = b.conditions) ppl1 ppl2)
    (g1 g2 : FallbackDiGraph)
    (h : g1.nodes_data.map Prod.fst = g2.nodes_data.map Prod.fst) :
    ((ppl1.foldl (fun g person => addNode g person.id person) g1).nodes_data).map Prod.fst =
      ((ppl2.foldl (fun g person => addNode g person.id person) g2).nodes_data).map Prod.fst := by
  induction hF generalizing g1 g2 with
  | nil => exact h
  | cons hab _ ih =>
    apply ih
    simp only [addNode]
    rw [setAssoc_fst, setAssoc_fst, h, hab.1]

theorem build_graph_congr (p1 p2 : PedigreeR)
    (hp : List.Forall₂ (fun a b => a.id = b.id ∧ a.conditions = b.conditions)
      p1.people p2.people)
    (hr : p1.relationships = p2.relationships) :
    ((build_graph p1).nodes_data).map Prod.fst = ((build_graph p2).nodes_data).map Prod.fst ∧
    (build_graph p1).edge_data = (build_graph p2).edge_data := by
  unfold build_graph
  constructor
  · rw [foldl_addEdge_nodes, foldl_addEdge_nodes]
    exact foldl_addNode_keys _ _ hp _ _ rfl
  · rw [hr]
    apply foldl_addEdge_edges
    rw [foldl_addNode_edges, foldl_addNode_edges]

theorem buildAdj_congr (g1 g2 : FallbackDiGraph)
    (hk : g1.nodes_data.map Prod.fst = g2.nodes_data.map Prod.fst)
    (he : g1.edge_data = g2.edge_data) : buildAdj g1 = buildAdj g2 := by
  unfold buildAdj
  rw [he]
  have hinit : g1.nodes_data.map (fun kv => (kv.1, ([] : List Int))) =
      g2.nodes_data.map (fun kv => (kv.1, ([] : List Int))) := by
    have h1 : ∀ (l : List (Int × PersonR)), l.map (fun kv => (kv.1, ([] : List Int))) =
        (l.map Prod.fst).map fun k => (k, ([] : List Int)) := by
      intro l
      rw [List.map_map]
      rfl
    rw [h1, h1, hk]
  rw [hinit]

theorem number_of_nodes_congr (g1 g2 : FallbackDiGraph)
    (hk : g1.nodes_data.map Prod.fst = g2.nodes_data.map Prod.fst) :
    number_of_nodes g1 = number_of_nodes g2 := by
  unfold number_of_nodes
  have := congrArg List.length hk
  simpa using this

theorem estimate_inbreeding_congr (g1 g2 : FallbackDiGraph)
    (hk : g1.nodes_data.map Prod.fst = g2.nodes_data.map Prod.fst)
    (he : g1.edge_data = g2.edge_data) :
    estimate_inbreeding g1 = estimate_inbreeding g2 := by
  unfold estimate_inbreeding _build_cycle_basis_fallback
  rw [buildAdj_congr g1 g2 hk he, number_of_nodes_congr g1 g2 hk]

theorem condFold_congr (l1 l2 : List PersonR)
    (hF : List.Forall₂ (fun a b => a.id = b.id ∧ a.conditions = b.conditions) l1 l2) :
    ∀ m : List (String × List Int),
      l1.foldl (fun m person =>
        person.conditions.foldl (fun m c => condAdd m (lowerStr c) person.id) m) m =
      l2.foldl (fun m person =>
        person.conditions.foldl (fun m c => condAdd m (lowerStr c) person.id) m) m := by
  induction hF with
  | nil => intro m; rfl
  | cons hab _ ih =>
    intro m
    simp only [List.foldl_cons]
    rw [hab.1, hab.2]
    exact ih _

theorem condition_to_people_congr (p1 p2 : PedigreeR)
    (hp : List.Forall₂ (fun a b => a.id = b.id ∧ a.conditions = b.conditions)
      p1.people p2.people) :
    _condition_to_people p1 = _condition_to_people p2 := by
  unfold _condition_to_people
  exact condFold_congr _ _ hp _

theorem flagsForCondition_congr (g1 g2 : FallbackDiGraph)
    (he : g1.edge_data = g2.edge_data) (e : String × List Int) :
    flagsForCondition g1 e = flagsForCondition g2 e := by
  have hedge : ∀ u v ty, _has_edge_with_type g1 u v ty = _has_edge_with_type g2 u v ty := by
    intro u v ty
    unfold _has_edge_with_type
    rw [he]
  have hsucc : ∀ n, _successors g1 n = _successors g2 n := by
    intro n
    unfold _successors
    rw [he]
  have hs : siblingPairs g1 e.2 = siblingPairs g2 e.2 := by
    unfold siblingPairs
    congr 1
    apply List.map_congr_left
    intro i _
    congr 1
    apply List.filter_congr
    intro j _
    rw [hedge]
  have hh : parentChildHits g1 e.2 = parentChildHits g2 e.2 := by
    unfold parentChildHits
    congr 1
    apply List.map_congr_left
    intro i _
    rw [hsucc]
    congr 1
    apply List.filter_congr
    intro j _
    rw [hedge, hedge]
  unfold flagsForCondition
  rw [hs, hh]

theorem infer_patterns_congr (p1 p2 : PedigreeR) (g1 g2 : FallbackDiGraph)
    (he : g1.edge_data = g2.edge_data)
    (hc : _condition_to_people p1 = _condition_to_people p2) :
    infer_inheritance_patterns g1 p1 = infer_inheritance_patterns g2 p2 := by
  unfold infer_inheritance_patterns
  rw [foldl_flags_eq_join, foldl_flags_eq_join, hc]
  have : List.map (flagsForCondition g1) (_condition_to_people p2) =
      List.map (flagsForCondition g2) (_condition_to_people p2) :=
    List.map_congr_left fun e _ => flagsForCondition_congr g1 g2 he e
  rw [this]

/-- C10: analyze_pedigree does not depend on the people's name, gender or
dob fields: two pedigrees with pairwise equal person ids and condition
lists (in the same order) and equal relationship lists produce identical
analysis results (inbreeding coefficient, flags, risk level and
recommendations alike). -/
theorem analyze_pedigree_noninterference (p1 p2 : PedigreeR)
    (hp : List.Forall₂ (fun a b => a.id = b.id ∧ a.conditions = b.conditions)
      p1.people p2.people)
    (hr : p1.relationships = p2.relationships) :
    analyze_pedigree p1 = analyze_pedigree p2 := by
  obtain ⟨hk, he⟩ := build_graph_congr p1 p2 hp hr
  have hest := estimate_inbreeding_congr _ _ hk he
  have hflags := infer_patterns_congr p1 p2 _ _ he (condition_to_people_congr p1 p2 hp)
  simp only [analyze_pedigree]
  rw [hest, hflags]

/-- Witness for C10: two pedigrees that differ in every name, gender and
dob, but agree on ids, conditions and relationships. -/
theorem analyze_pedigree_noninterference_witness :
    analyze_pedigree
        ⟨[⟨1, "Alice", "F", "1980-01-01", ["c"]⟩, ⟨2, "Bob", "M", "approx", []⟩],
         [⟨1, 2, "parent"⟩]⟩ =
      analyze_pedigree
        ⟨[⟨1, "X", "O", "approx", ["c"]⟩, ⟨2, "Y", "F", "1999-12-31", []⟩],
         [⟨1, 2, "parent"⟩]⟩ :=
  analyze_pedigree_noninterference _ _
    (List.Forall₂.cons ⟨rfl, rfl⟩ (List.Forall₂.cons ⟨rfl, rfl⟩ List.Forall₂.nil)) rfl

/-- The underlying undirected simple graph of a fallback digraph: `u` and
`v` are adjacent when they are distinct and some edge joins them in either
direction. -/
def pedGraphOf (g : FallbackDiGraph) : SimpleGraph Int where
  Adj u v := u ≠ v ∧
    ((getAssoc g.edge_data (u, v)).isSome ∨ (getAssoc g.edge_data (v, u)).isSome)
  symm := by
    intro u v h
    exact ⟨h.1.symm, h.2.symm⟩
  loopless := by
    intro u h
    exact h.1 rfl

/-- The underlying undirected simple graph of the graph built from a
pedigree. -/
def pedigreeGraph (p : PedigreeR) : SimpleGraph Int := pedGraphOf (build_graph p)

theorem round_rat_mono {x y : ℚ} (h : x ≤ y) : round x ≤ round y := by
  rw [round_eq, round_eq]
  exact Int.floor_le_floor (by linarith)

theorem roundTo4_mono {x y : ℚ} (h : x ≤ y) : roundTo4 x ≤ roundTo4 y := by
  unfold roundTo4
  have := round_rat_mono (show x * 10000 ≤ y * 10000 by linarith)
  have hc : ((round (x * 10000) : ℤ) : ℚ) ≤ ((round (y * 10000) : ℤ) : ℚ) := by
    exact_mod_cast this
  linarith

theorem roundTo4_zero : roundTo4 0 = 0 := by
  unfold roundTo4
  norm_num

theorem roundTo4_quarter : roundTo4 0.25 = 0.25 := by
  unfold roundTo4
  have h : (0.25 : ℚ) * 10000 = ((2500 : ℤ) : ℚ) := by norm_num
  rw [h, round_intCast]
  norm_num

theorem estimate_inbreeding_nonneg_le (g : FallbackDiGraph) :
    0 ≤ estimate_inbreeding g ∧ estimate_inbreeding g ≤ 0.25 := by
  unfold estimate_inbreeding
  by_cases h : _build_cycle_basis_fallback g = []
  · simp only [h, if_pos rfl]
    norm_num
  · simp only [h, if_neg h]
    set x := ((List.map List.length (_build_cycle_basis_fallback g)).sum : ℚ) /
      ((max 1 (number_of_nodes g) : ℕ) : ℚ) * 0.03125 with hx
    have hx0 : 0 ≤ x := by
      rw [hx]
      positivity
    have hmin0 : 0 ≤ min 0.25 x := le_min (by norm_num) hx0
    have hminq : min 0.25 x ≤ 0.25 := min_le_left _ _
    constructor
    · calc (0 : ℚ) = roundTo4 0 := roundTo4_zero.symm
        _ ≤ roundTo4 (min 0.25 x) := roundTo4_mono hmin0
    · calc roundTo4 (min 0.25 x) ≤ roundTo4 0.25 := roundTo4_mono hminq
        _ = 0.25 := roundTo4_quarter

theorem getAssoc_mem {κ α : Type} [DecidableEq κ] {l : List (κ × α)} {k : κ} {v : α}
    (h : getAssoc l k = some v) : (k, v) ∈ l := by
  induction l with
  | nil => cases h
  | cons kv rest ih =>
    obtain ⟨a, b⟩ := kv
    by_cases hk : a = k
    · subst hk
      simp only [getAssoc, if_pos rfl] at h
      injection h with hb
      subst hb
      exact List.mem_cons_self _ _
    · simp only [getAssoc, if_neg hk] at h
      exact List.mem_cons_of_mem _ (ih h)

theorem getAssoc_isSome_iff {κ α : Type} [DecidableEq κ] (l : List (κ × α)) (k : κ) :
    (getAssoc l k).isSome = true ↔ k ∈ l.map Prod.fst := by
  induction l with
  | nil => simp [getAssoc]
  | cons kv rest ih =>
    obtain ⟨a, b⟩ := kv
    by_cases hk : a = k
    · subst hk
      simp [getAssoc]
    · simp only [getAssoc, if_neg hk, List.map_cons, List.mem_cons]
      rw [ih]
      constructor
      · exact Or.inr
      · rintro (h | h)
        · exact absurd h.symm hk
        · exact h

theorem mem_getAssoc_of_nodup {κ α : Type} [DecidableEq κ] {l : List (κ × α)} {k : κ} {v : α}
    (hnd : (l.map Prod.fst).Nodup) (h : (k, v) ∈ l) : getAssoc l k = some v := by
  induction l with
  | nil => cases h
  | cons kv rest ih =>
    simp only [List.map_cons, List.nodup_cons] at hnd
    rcases List.mem_cons.1 h with h' | h'
    · rw [← h']
      simp [getAssoc]
    · have hk : kv.1 ≠ k := by
        intro he
        exact hnd.1 (he ▸ List.mem_map.2 ⟨_, h', rfl⟩)
      obtain ⟨a, b⟩ := kv
      simp only [getAssoc, if_neg hk]
      exact ih hnd.2 h'

theorem getAssoc_append_left {κ α : Type} [DecidableEq κ] {l l' : List (κ × α)} {k : κ} {v : α}
    (h : getAssoc l k = some v) : getAssoc (l ++ l') k = some v := by
  induction l with
  | nil => cases h
  | cons kv rest ih =>
    obtain ⟨a, b⟩ := kv
    by_cases hk : a = k
    · simp only [getAssoc, if_pos hk] at h
      simp only [List.cons_append, getAssoc, if_pos hk]
      exact h
    · simp only [getAssoc, if_neg hk] at h
      simp only [List.cons_append, getAssoc, if_neg hk]
      exact ih h

theorem getAssoc_append_right {κ α : Type} [DecidableEq κ] {l l' : List (κ × α)} {k : κ}
    (h : k ∉ l.map Prod.fst) : getAssoc (l ++ l') k = getAssoc l' k := by
  induction l with
  | nil => rfl
  | cons kv rest ih =>
    simp only [List.map_cons, List.mem_cons] at h
    push_neg at h
    obtain ⟨a, b⟩ := kv
    have ha : ¬ a = k := fun he => h.1 he.symm
    simp only [List.cons_append, getAssoc, if_neg ha]
    exact ih h.2

theorem isKeyOf_iff (parent : List (Int × Option Int)) (x : Int) :
    isKeyOf parent x = true ↔ x ∈ parent.map Prod.fst := by
  unfold isKeyOf
  rw [List.any_eq_true]
  constructor
  · rintro ⟨e, he, hx⟩
    exact List.mem_map.2 ⟨e, he, by simpa using hx⟩
  · intro h
    obtain ⟨e, he, hx⟩ := List.mem_map.1 h
    exact ⟨e, he, by simpa using hx⟩

theorem adjLookup_adjAddDir (adj : List (Int × List Int)) (u v k : Int) :
    adjLookup (adjAddDir adj u v) k =
      if k = u then
        (if (adjLookup adj u).contains v then adjLookup adj u else adjLookup adj u ++ [v])
      else adjLookup adj k := by
  induction adj with
  | nil =>
    by_cases hk : k = u
    · subst hk
      simp [adjAddDir, adjLookup]
    · have hk2 : ¬ u = k := fun h => hk h.symm
      simp [adjAddDir, adjLookup, hk, hk2]
  | cons kv rest ih =>
    obtain ⟨k', s⟩ := kv
    by_cases hku : k' = u
    · subst hku
      by_cases hk : k' = k
      · subst hk
        simp [adjAddDir, adjLookup]
      · have hk2 : ¬ k = k' := fun h => hk h.symm
        simp [adjAddDir, adjLookup, hk, hk2]
    · by_cases hk : k' = k
      · subst hk
        have hk2 : ¬ k' = u := hku
        simp [adjAddDir, adjLookup, hk2]
      · simp only [adjAddDir, if_neg hku, adjLookup, if_neg hk]
        exact ih

theorem mem_adjLookup_adjAddDir (adj : List (Int × List Int)) (u v k x : Int) :
    x ∈ adjLookup (adjAddDir adj u v) k ↔
      x ∈ adjLookup adj k ∨ (k = u ∧ x = v) := by
  rw [adjLookup_adjAddDir]
  by_cases hk : k = u
  · subst hk
    rw [if_pos rfl]
    by_cases hc : (adjLookup adj k).contains v = true
    · rw [if_pos hc]
      have hv : v ∈ adjLookup adj k := List.mem_of_elem_eq_true hc
      constructor
      · exact fun h => Or.inl h
      · rintro (h | ⟨-, rfl⟩)
        · exact h
        · exact hv
    · rw [if_neg hc, List.mem_append, List.mem_singleton]
      constructor
      · rintro (h | h)
        · exact Or.inl h
        · exact Or.inr ⟨rfl, h⟩
      · rintro (h | ⟨-, rfl⟩)
        · exact Or.inl h
        · exact Or.inr rfl
  · rw [if_neg hk]
    constructor
    · exact fun h => Or.inl h
    · rintro (h | ⟨rfl, -⟩)
      · exact h
      · exact absurd rfl hk

theorem adjLookup_nodup_adjAddDir (adj : List (Int × List Int)) (u v : Int)
    (h : ∀ k, (adjLookup adj k).Nodup) (k : Int) :
    (adjLookup (adjAddDir adj u v) k).Nodup := by
  rw [adjLookup_adjAddDir]
  by_cases hk : k = u
  · subst hk
    rw [if_pos rfl]
    by_cases hc : (adjLookup adj k).contains v = true
    · rw [if_pos hc]
      exact h k
    · rw [if_neg hc]
      refine List.Nodup.append (h k) (List.nodup_singleton v) ?_
      intro a ha hb
      rw [List.mem_singleton] at hb
      subst hb
      exact hc (List.elem_eq_true_of_mem ha)
  · rw [if_neg hk]
    exact h k

theorem adjLookup_init (nodes : List (Int × PersonR)) (k : Int) :
    adjLookup (nodes.map fun kv => (kv.1, ([] : List Int))) k = [] := by
  induction nodes with
  | nil => rfl
  | cons kv rest ih =>
    by_cases hk : kv.1 = k
    · simp [adjLookup, hk]
    · simp [adjLookup, hk, ih]

theorem mem_buildAdj_foldl (es : List ((Int × Int) × String)) :
    ∀ (adj0 : List (Int × List Int)) (k x : Int),
      x ∈ adjLookup (es.foldl
        (fun adj e => adjAddDir (adjAddDir adj e.1.1 e.1.2) e.1.2 e.1.1) adj0) k ↔
      x ∈ adjLookup adj0 k ∨ ∃ e ∈ es, e.1 = (k, x) ∨ e.1 = (x, k) := by
  induction es with
  | nil => simp
  | cons e rest ih =>
    intro adj0 k x
    simp only [List.foldl_cons]
    rw [ih, mem_adjLookup_adjAddDir, mem_adjLookup_adjAddDir]
    simp only [List.mem_cons]
    constructor
    · rintro (((h | ⟨rfl, rfl⟩) | ⟨rfl, rfl⟩) | ⟨e', he', hp⟩)
      · exact Or.inl h
      · exact Or.inr ⟨e, Or.inl rfl, Or.inl Prod.mk.eta.symm⟩
      · exact Or.inr ⟨e, Or.inl rfl, Or.inr Prod.mk.eta.symm⟩
      · exact Or.inr ⟨e', Or.inr he', hp⟩
    · rintro (h | ⟨e', rfl | he', hp⟩)
      · exact Or.inl (Or.inl (Or.inl h))
      · rcases hp with hp | hp
        · have h1 : e'.1.1 = k := by rw [hp]
          have h2 : e'.1.2 = x := by rw [hp]
          exact Or.inl (Or.inl (Or.inr ⟨h1.symm, h2.symm⟩))
        · have h1 : e'.1.1 = x := by rw [hp]
          have h2 : e'.1.2 = k := by rw [hp]
          exact Or.inl (Or.inr ⟨h2.symm, h1.symm⟩)
      · exact Or.inr ⟨e', he', hp⟩

theorem mem_buildAdj (g : FallbackDiGraph) (k x : Int) :
    x ∈ adjLookup (buildAdj g) k ↔
      ∃ e ∈ g.edge_data, e.1 = (k, x) ∨ e.1 = (x, k) := by
  unfold buildAdj
  rw [mem_buildAdj_foldl, adjLookup_init]
  simp

theorem buildAdj_nodup (g : FallbackDiGraph) (k : Int) :
    (adjLookup (buildAdj g) k).Nodup := by
  unfold buildAdj
  have h : ∀ (es : List ((Int × Int) × String)) (adj0 : List (Int × List Int)),
      (∀ k, (adjLookup adj0 k).Nodup) →
      ∀ k, (adjLookup (es.foldl
        (fun adj e => adjAddDir (adjAddDir adj e.1.1 e.1.2) e.1.2 e.1.1) adj0) k).Nodup := by
    intro es
    induction es with
    | nil => intro adj0 h k; exact h k
    | cons e rest ih =>
      intro adj0 h k
      simp only [List.foldl_cons]
      exact ih _ (fun k' => adjLookup_nodup_adjAddDir _ _ _
        (fun k'' => adjLookup_nodup_adjAddDir _ _ _ h k'') k') k
  exact h _ _ (fun k' => by rw [adjLookup_init]; exact List.nodup_nil) k

/-- Well-formedness of the `parent` dict of the fallback search, relative
to the keys inserted so far: a root entry (parent `None`) can only come
first, every later entry's parent is an earlier key, and no key is
inserted twice. -/
def parentWFAux : List Int → List (Int × Option Int) → Prop
  | _, [] => True
  | keys, (x, op) :: rest =>
    (match op with
     | none => keys = []
     | some y => y ∈ keys) ∧ x ∉ keys ∧ parentWFAux (keys ++ [x]) rest

theorem parentWFAux_nodup (parent : List (Int × Option Int)) :
    ∀ keys : List Int, keys.Nodup → parentWFAux keys parent →
      (keys ++ parent.map Prod.fst).Nodup := by
  induction parent with
  | nil => intro keys h _; simpa using h
  | cons e rest ih =>
    obtain ⟨x, op⟩ := e
    intro keys hnd hwf
    obtain ⟨hop, hx, hrest⟩ := hwf
    have h1 : (keys ++ [x]).Nodup := by
      refine List.Nodup.append hnd (List.nodup_singleton x) ?_
      intro a ha hb
      rw [List.mem_singleton] at hb
      subst hb
      exact hx ha
    have := ih _ h1 hrest
    simpa [List.append_assoc] using this

theorem parentWFAux_entry_ne (parent : List (Int × Option Int)) :
    ∀ keys : List Int, parentWFAux keys parent →
      ∀ a b : Int, (a, some b) ∈ parent → a ≠ b := by
  induction parent with
  | nil => intro _ _ a b h; cases h
  | cons e rest ih =>
    obtain ⟨x, op⟩ := e
    intro keys hwf a b hmem
    obtain ⟨hop, hx, hrest⟩ := hwf
    rcases List.mem_cons.1 hmem with h | h
    · have hax : a = x := by
        have := congrArg Prod.fst h
        simpa using this
      have hob : op = some b := by
        have := congrArg Prod.snd h
        simpa using this.symm
      subst hax
      rw [hob] at hop
      intro hab
      subst hab
      exact hx hop
    · exact ih _ hrest a b h

theorem parentWFAux_append_one (parent : List (Int × Option Int)) (x y : Int) :
    ∀ keys : List Int, parentWFAux keys parent →
      x ∉ keys ++ parent.map Prod.fst → y ∈ keys ++ parent.map Prod.fst →
      parentWFAux keys (parent ++ [(x, some y)]) := by
  induction parent with
  | nil =>
    intro keys _ hx hy
    simp only [List.map_nil, List.append_nil] at hx hy
    exact ⟨hy, hx, trivial⟩
  | cons e rest ih =>
    obtain ⟨z, op⟩ := e
    intro keys hwf hx hy
    obtain ⟨hop, hz, hrest⟩ := hwf
    refine ⟨hop, hz, ?_⟩
    apply ih _ hrest
    · intro hc
      apply hx
      simp only [List.map_cons, List.mem_append, List.mem_cons]
      simp only [List.mem_append, List.mem_singleton] at hc
      rcases hc with (hc | hc) | hc
      · exact Or.inl hc
      · exact Or.inr (Or.inl hc)
      · exact Or.inr (Or.inr hc)
    · simp only [List.map_cons, List.mem_append, List.mem_cons] at hy
      simp only [List.mem_append, List.mem_singleton]
      rcases hy with hy | hy | hy
      · exact Or.inl (Or.inl hy)
      · exact Or.inl (Or.inr hy)
      · exact Or.inr hy

theorem parentWFAux_reach (parent : List (Int × Option Int)) (Gd : SimpleGraph Int) :
    ∀ keys : List Int,
      (∀ a b : Int, (a, some b) ∈ parent → Gd.Adj a b) →
      parentWFAux keys parent →
      (∀ x ∈ keys, ∀ y ∈ keys, Gd.Reachable x y) →
      ∀ x ∈ keys ++ parent.map Prod.fst, ∀ y ∈ keys ++ parent.map Prod.fst,
        Gd.Reachable x y := by
  induction parent with
  | nil =>
    intro keys _ _ hkeys
    simpa using hkeys
  | cons e rest ih =>
    obtain ⟨z, op⟩ := e
    intro keys hadj hwf hkeys
    obtain ⟨hop, hz, hrest⟩ := hwf
    have hzr : ∀ w ∈ keys, Gd.Reachable z w := by
      intro w hw
      match op, hop with
      | none, hop =>
        rw [hop] at hw
        cases hw
      | some b, hop =>
        have hadjzb : Gd.Adj z b := hadj z b (List.mem_cons_self _ _)
        exact hadjzb.reachable.trans (hkeys b hop w hw)
    have hkeys' : ∀ x ∈ keys ++ [z], ∀ y ∈ keys ++ [z], Gd.Reachable x y := by
      intro x hx y hy
      rcases List.mem_append.1 hx with hx | hx <;>
        rcases List.mem_append.1 hy with hy | hy
      · exact hkeys x hx y hy
      · have hyz : y = z := by simpa using hy
        rw [hyz]
        exact (hzr x hx).symm
      · have hxz : x = z := by simpa using hx
        rw [hxz]
        exact hzr y hy
      · have hxz : x = z := by simpa using hx
        have hyz : y = z := by simpa using hy
        rw [hxz, hyz]
    have hadj' : ∀ a b : Int, (a, some b) ∈ rest → Gd.Adj a b := by
      intro a b h
      exact hadj a b (List.mem_cons_of_mem _ h)
    have := ih (keys ++ [z]) hadj' hrest hkeys'
    intro x hx y hy
    apply this
    · simpa [List.append_assoc] using hx
    · simpa [List.append_assoc] using hy

/-- If the search reports a back edge `cur`—`nbr` that is a real edge of
the graph, not a tree edge, and both endpoints are discovered (members of
the parent tree), then the graph has a cycle. -/
theorem dfs_report_contradiction (G : SimpleGraph Int) (hacyc : G.IsAcyclic)
    (parent : List (Int × Option Int)) (cur nbr : Int)
    (hwf : parentWFAux [] parent)
    (htreeAdj : ∀ a b : Int, (a, some b) ∈ parent → G.Adj a b)
    (hadj : G.Adj cur nbr)
    (hnotCN : (cur, some nbr) ∉ parent) (hnotNC : (nbr, some cur) ∉ parent)
    (hcur : cur ∈ parent.map Prod.fst) (hnbr : nbr ∈ parent.map Prod.fst) : False := by
  have hbr := (SimpleGraph.isAcyclic_iff_forall_adj_isBridge.1 hacyc) hadj
  rw [SimpleGraph.isBridge_iff] at hbr
  apply hbr.2
  set Gd := G \ SimpleGraph.fromEdgeSet {s(cur, nbr)} with hGd
  have hadj' : ∀ a b : Int, (a, some b) ∈ parent → Gd.Adj a b := by
    intro a b h
    rw [hGd, SimpleGraph.sdiff_adj]
    refine ⟨htreeAdj a b h, ?_⟩
    rw [SimpleGraph.fromEdgeSet_adj]
    rintro ⟨hs, -⟩
    rw [Set.mem_singleton_iff, Sym2.eq_iff] at hs
    rcases hs with ⟨rfl, rfl⟩ | ⟨rfl, rfl⟩
    · exact hnotCN h
    · exact hnotNC h
  have := parentWFAux_reach parent Gd [] hadj' hwf (by intro x hx; cases hx)
  exact this cur (by simpa using hcur) nbr (by simpa using hnbr)

theorem processNbrs_sound (adj : List (Int × List Int)) (G : SimpleGraph Int)
    (hGadj : ∀ a b : Int, b ∈ adjLookup adj a → a ≠ b → G.Adj a b)
    (hsym : ∀ a b : Int, b ∈ adjLookup adj a → a ∈ adjLookup adj b)
    (hnoself : ∀ a : Int, a ∉ adjLookup adj a)
    (hacyc : G.IsAcyclic)
    (cur : Int) (par : Option Int) (visited : List Int) :
    ∀ (nbrs : List Int) (parent stack : List (Int × Option Int)) (cycles : List (List Int)),
      (∀ n ∈ nbrs, n ∈ adjLookup adj cur) →
      nbrs.Nodup →
      parentWFAux [] parent →
      (∀ a b : Int, (a, some b) ∈ parent → b ∈ adjLookup adj a) →
      (∀ e ∈ stack, getAssoc parent e.1 = some e.2) →
      getAssoc parent cur = some par →
      (∀ a b : Int, (a, some b) ∈ parent → b = cur ∨ b ∈ visited) →
      (∀ b : Int, (b, some cur) ∈ parent → b ∉ nbrs) →
      (processNbrs cur par nbrs parent stack cycles).2.2 = cycles ∧
      parentWFAux [] (processNbrs cur par nbrs parent stack cycles).1 ∧
      (∀ a b : Int, (a, some b) ∈ (processNbrs cur par nbrs parent stack cycles).1 →
        b ∈ adjLookup adj a) ∧
      (∀ e ∈ (processNbrs cur par nbrs parent stack cycles).2.1,
        getAssoc (processNbrs cur par nbrs parent stack cycles).1 e.1 = some e.2) ∧
      (∀ a b : Int, (a, some b) ∈ (processNbrs cur par nbrs parent stack cycles).1 →
        b = cur ∨ b ∈ visited) := by
  intro nbrs
  induction nbrs with
  | nil =>
    intro parent stack cycles _ _ hwf htree hstack _ hvis _
    exact ⟨rfl, hwf, htree, hstack, hvis⟩
  | cons nbr rest ih =>
    intro parent stack cycles hsub hnd hwf htree hstack hcur hvis hold
    have hnbr_adj : nbr ∈ adjLookup adj cur := hsub nbr (List.mem_cons_self _ _)
    have hcur_ne_nbr : cur ≠ nbr := by
      intro he
      exact hnoself nbr (he ▸ hnbr_adj)
    by_cases hpar : some nbr = par
    · rw [show processNbrs cur par (nbr :: rest) parent stack cycles =
          processNbrs cur par rest parent stack cycles from by
        simp [processNbrs, hpar]]
      exact ih parent stack cycles (fun n hn => hsub n (List.mem_cons_of_mem _ hn))
        hnd.of_cons hwf htree hstack hcur hvis
        (fun b hb hr => hold b hb (List.mem_cons_of_mem _ hr))
    · by_cases hkey : isKeyOf parent nbr = true
      · exfalso
        have hnd0 : (parent.map Prod.fst).Nodup := by
          have := parentWFAux_nodup parent [] List.nodup_nil hwf
          simpa using this
        have hcurmem : cur ∈ parent.map Prod.fst := by
          rw [← getAssoc_isSome_iff, hcur]
          rfl
        have hnbrmem : nbr ∈ parent.map Prod.fst := (isKeyOf_iff _ _).1 hkey
        have hCN : (cur, some nbr) ∉ parent := by
          intro hmem
          have hg := mem_getAssoc_of_nodup hnd0 hmem
          rw [hcur] at hg
          injection hg with hq
          exact hpar hq.symm
        have hNC : (nbr, some cur) ∉ parent := fun hmem =>
          (hold nbr hmem) (List.mem_cons_self _ _)
        have hadjG : G.Adj cur nbr := hGadj cur nbr hnbr_adj hcur_ne_nbr
        have htreeG : ∀ a b : Int, (a, some b) ∈ parent → G.Adj a b := fun a b h =>
          hGadj a b (htree a b h) (parentWFAux_entry_ne parent [] hwf a b h)
        exact dfs_report_contradiction G hacyc parent cur nbr hwf htreeG hadjG
          hCN hNC hcurmem hnbrmem
      · rw [show processNbrs cur par (nbr :: rest) parent stack cycles =
            processNbrs cur par rest (parent ++ [(nbr, some cur)])
              ((nbr, some cur) :: stack) cycles from by
          simp [processNbrs, hpar, hkey]]
        have hnbr_notkey : nbr ∉ parent.map Prod.fst := fun h =>
          hkey ((isKeyOf_iff _ _).2 h)
        have hcurmem : cur ∈ parent.map Prod.fst := by
          rw [← getAssoc_isSome_iff, hcur]
          rfl
        apply ih
        · exact fun n hn => hsub n (List.mem_cons_of_mem _ hn)
        · exact hnd.of_cons
        · exact parentWFAux_append_one parent nbr cur [] hwf
            (by simpa using hnbr_notkey) (by simpa using hcurmem)
        · intro a b h
          rcases List.mem_append.1 h with h | h
          · exact htree a b h
          · rw [List.mem_singleton] at h
            have ha : a = nbr := by
              have := congrArg Prod.fst h
              simpa using this
            have hb : b = cur := by
              have := congrArg Prod.snd h
              simpa using this
            rw [ha, hb]
            exact hsym cur nbr hnbr_adj
        · intro e he
          rcases List.mem_cons.1 he with he | he
          · subst he
            rw [getAssoc_append_right hnbr_notkey]
            simp [getAssoc]
          · exact getAssoc_append_left (hstack e he)
        · exact getAssoc_append_left hcur
        · intro a b h
          rcases List.mem_append.1 h with h | h
          · exact hvis a b h
          · rw [List.mem_singleton] at h
            have hb : b = cur := by
              have := congrArg Prod.snd h
              simpa using this
            exact Or.inl hb
        · intro b hb hr
          rcases List.mem_append.1 hb with hb | hb
          · exact hold b hb (List.mem_cons_of_mem _ hr)
          · rw [List.mem_singleton] at hb
            have hbn : b = nbr := by
              have := congrArg Prod.fst hb
              simpa using this
            subst hbn
            exact (List.nodup_cons.1 hnd).1 hr

theorem dfsLoop_nil_eq (adj : List (Int × List Int)) (parent : List (Int × Option Int))
    (visited : List Int) (cycles : List (List Int)) :
    dfsLoop adj [] parent visited cycles = (visited, cycles) := by
  rw [dfsLoop]

theorem dfsLoop_cons_mem (adj : List (Int × List Int)) (cur : Int) (par : Option Int)
    (rest parent : List (Int × Option Int)) (visited : List Int) (cycles : List (List Int))
    (h : cur ∈ visited) :
    dfsLoop adj ((cur, par) :: rest) parent visited cycles =
      dfsLoop adj rest parent visited cycles := by
  conv_lhs => rw [dfsLoop]
  simp [h]

theorem dfsLoop_cons_new (adj : List (Int × List Int)) (cur : Int) (par : Option Int)
    (rest parent : List (Int × Option Int)) (visited : List Int) (cycles : List (List Int))
    (h : cur ∉ visited) :
    dfsLoop adj ((cur, par) :: rest) parent visited cycles =
      dfsLoop adj (processNbrs cur par (adjLookup adj cur) parent rest cycles).2.1
        (processNbrs cur par (adjLookup adj cur) parent rest cycles).1
        (cur :: visited)
        (processNbrs cur par (adjLookup adj cur) parent rest cycles).2.2 := by
  conv_lhs => rw [dfsLoop]
  simp [h]

theorem dfsLoop_no_report (adj : List (Int × List Int)) (G : SimpleGraph Int)
    (hGadj : ∀ a b : Int, b ∈ adjLookup adj a → a ≠ b → G.Adj a b)
    (hsym : ∀ a b : Int, b ∈ adjLookup adj a → a ∈ adjLookup adj b)
    (hnoself : ∀ a : Int, a ∉ adjLookup adj a)
    (hnodupvals : ∀ k : Int, (adjLookup adj k).Nodup)
    (hacyc : G.IsAcyclic) :
    ∀ (stack parent : List (Int × Option Int)) (visited : List Int)
      (cycles : List (List Int)),
      parentWFAux [] parent →
      (∀ a b : Int, (a, some b) ∈ parent → b ∈ adjLookup adj a) →
      (∀ e ∈ stack, getAssoc parent e.1 = some e.2) →
      (∀ a b : Int, (a, some b) ∈ parent → b ∈ visited) →
      (dfsLoop adj stack parent visited cycles).2 = cycles := by
  intro stack parent visited cycles
  induction stack, parent, visited, cycles using dfsLoop.induct adj with
  | case1 parent visited cycles =>
    intro _ _ _ _
    rw [dfsLoop_nil_eq]
  | case2 parent visited cycles cur par rest h ih =>
    intro hwf htree hstack hvis
    rw [dfsLoop_cons_mem adj cur par rest parent visited cycles h]
    exact ih hwf htree (fun e he => hstack e (List.mem_cons_of_mem _ he)) hvis
  | case3 parent visited cycles cur par rest h r ih =>
    intro hwf htree hstack hvis
    have hcurpar : getAssoc parent cur = some par :=
      hstack (cur, par) (List.mem_cons_self _ _)
    obtain ⟨hcyc, hwf', htree', hstack', hvis'⟩ :=
      processNbrs_sound adj G hGadj hsym hnoself hacyc cur par visited
        (adjLookup adj cur) parent rest cycles
        (fun n hn => hn) (hnodupvals cur) hwf htree
        (fun e he => hstack e (List.mem_cons_of_mem _ he)) hcurpar
        (fun a b hab => Or.inr (hvis a b hab))
        (fun b hb => absurd (hvis b cur hb) h)
    have hv : ∀ a b : Int,
        (a, some b) ∈ (processNbrs cur par (adjLookup adj cur) parent rest cycles).1 →
        b ∈ cur :: visited := by
      intro a b hab
      rcases hvis' a b hab with rfl | hh
      · exact List.mem_cons_self _ _
      · exact List.mem_cons_of_mem _ hh
    have hres := ih hwf' htree' hstack' hv
    rw [dfsLoop_cons_new adj cur par rest parent visited cycles h]
    exact hres.trans hcyc

theorem dfsOuter_no_report (adj : List (Int × List Int)) (G : SimpleGraph Int)
    (hGadj : ∀ a b : Int, b ∈ adjLookup adj a → a ≠ b → G.Adj a b)
    (hsym : ∀ a b : Int, b ∈ adjLookup adj a → a ∈ adjLookup adj b)
    (hnoself : ∀ a : Int, a ∉ adjLookup adj a)
    (hnodupvals : ∀ k : Int, (adjLookup adj k).Nodup)
    (hacyc : G.IsAcyclic) :
    ∀ (nodes visited : List Int) (cycles : List (List Int)),
      (dfsOuter adj nodes visited cycles).2 = cycles := by
  intro nodes
  induction nodes with
  | nil => intro visited cycles; rfl
  | cons node rest ih =>
    intro visited cycles
    by_cases h : node ∈ visited
    · rw [show dfsOuter adj (node :: rest) visited cycles =
          dfsOuter adj rest visited cycles from by simp [dfsOuter, h]]
      exact ih visited cycles
    · have hloop := dfsLoop_no_report adj G hGadj hsym hnoself hnodupvals hacyc
        [(node, none)] [(node, none)] visited cycles
        ⟨rfl, List.not_mem_nil node, trivial⟩
        (fun a b hab => by
          rw [List.mem_singleton] at hab
          have := congrArg Prod.snd hab
          simp at this)
        (fun e he => by
          rw [List.mem_singleton] at he
          subst he
          simp [getAssoc])
        (fun a b hab => by
          rw [List.mem_singleton] at hab
          have := congrArg Prod.snd hab
          simp at this)
      rw [show dfsOuter adj (node :: rest) visited cycles =
          dfsOuter adj rest
            (dfsLoop adj [(node, none)] [(node, none)] visited cycles).1
            (dfsLoop adj [(node, none)] [(node, none)] visited cycles).2
          from by simp [dfsOuter, h]]
      rw [ih, hloop]

theorem cycle_basis_nil_of_acyclic (g : FallbackDiGraph)
    (hns : ∀ u : Int, getAssoc g.edge_data (u, u) = none)
    (hacyc : (pedGraphOf g).IsAcyclic) :
    _build_cycle_basis_fallback g = [] := by
  unfold _build_cycle_basis_fallback
  apply dfsOuter_no_report (buildAdj g) (pedGraphOf g)
  · intro a b hmem hne
    refine ⟨hne, ?_⟩
    rw [mem_buildAdj] at hmem
    obtain ⟨e, he, hp | hp⟩ := hmem
    · left
      rw [getAssoc_isSome_iff]
      exact List.mem_map.2 ⟨e, he, hp⟩
    · right
      rw [getAssoc_isSome_iff]
      exact List.mem_map.2 ⟨e, he, hp⟩
  · intro a b hmem
    rw [mem_buildAdj] at hmem ⊢
    obtain ⟨e, he, hp | hp⟩ := hmem
    · exact ⟨e, he, Or.inr hp⟩
    · exact ⟨e, he, Or.inl hp⟩
  · intro a hmem
    rw [mem_buildAdj] at hmem
    obtain ⟨e, he, hp⟩ := hmem
    have hp' : e.1 = (a, a) := by
      rcases hp with hp | hp <;> exact hp
    have : (getAssoc g.edge_data (a, a)).isSome = true := by
      rw [getAssoc_isSome_iff]
      exact List.mem_map.2 ⟨e, he, hp'⟩
    rw [hns a] at this
    cases this
  · exact buildAdj_nodup g
  · exact hacyc

/-- C6: for every graph built from a pedigree, estimateInbreeding lies in
the closed interval `[0, 0.25]` (the division is by `max 1 n`, so no
division by zero occurs even for the zero-node graph), and it returns
exactly `0` whenever the underlying undirected graph — including the
self-loop check — is acyclic, the zero-node empty graph included. -/
theorem estimate_inbreeding_bounds_and_acyclic_zero (p : PedigreeR) :
    0 ≤ estimate_inbreeding (build_graph p) ∧
    estimate_inbreeding (build_graph p) ≤ 0.25 ∧
    ((∀ u : Int, getAssoc (build_graph p).edge_data (u, u) = none) →
      (pedigreeGraph p).IsAcyclic →
      estimate_inbreeding (build_graph p) = 0) := by
  refine ⟨(estimate_inbreeding_nonneg_le _).1, (estimate_inbreeding_nonneg_le _).2, ?_⟩
  intro hns hacyc
  have h := cycle_basis_nil_of_acyclic (build_graph p) hns hacyc
  unfold estimate_inbreeding
  rw [h]
  simp

/-- Witness for C6 at the empty pedigree: the zero-node graph has no
self-loops, its underlying undirected graph is acyclic, and the estimator
returns exactly `0`. -/
theorem estimate_inbreeding_acyclic_witness :
    (∀ u : Int, getAssoc (build_graph ⟨[], []⟩).edge_data (u, u) = none) ∧
    (pedigreeGraph ⟨[], []⟩).IsAcyclic ∧
    estimate_inbreeding (build_graph ⟨[], []⟩) = 0 := by
  have hbot : pedigreeGraph (⟨[], []⟩ : PedigreeR) = ⊥ := by
    ext u v
    constructor
    · rintro ⟨-, h | h⟩ <;> cases h
    · intro h
      cases h
  refine ⟨fun u => rfl, ?_, ?_⟩
  · rw [hbot]
    exact SimpleGraph.isAcyclic_bot
  · exact (estimate_inbreeding_bounds_and_acyclic_zero ⟨[], []⟩).2.2 (fun u => rfl)
      (by rw [hbot]; exact SimpleGraph.isAcyclic_bot)

theorem char_ofNat_toNat {n : Nat} (h : n.isValidChar) : (Char.ofNat n).toNat = n := by
  unfold Char.ofNat
  rw [dif_pos h]
  rfl

theorem lowerChar_toNat_of_upper {c : Char} (h : 65 ≤ c.toNat ∧ c.toNat ≤ 90) :
    (lowerChar c).toNat = c.toNat + 32 := by
  unfold lowerChar
  rw [if_pos h]
  exact char_ofNat_toNat (Or.inl (by omega))

theorem lowerChar_idem (c : Char) : lowerChar (lowerChar c) = lowerChar c := by
  by_cases h : 65 ≤ c.toNat ∧ c.toNat ≤ 90
  · have ht := lowerChar_toNat_of_upper h
    unfold lowerChar
    rw [if_pos h, if_neg]
    unfold lowerChar at ht
    rw [if_pos h] at ht
    rw [ht]
    omega
  · have h1 : lowerChar c = c := by unfold lowerChar; rw [if_neg h]
    rw [h1, h1]

theorem isSpaceChar_iff_toNat (c : Char) :
    isSpaceChar c = true ↔
      c.toNat = 32 ∨ c.toNat = 9 ∨ c.toNat = 10 ∨ c.toNat = 13 := by
  unfold isSpaceChar
  rw [decide_eq_true_iff]
  constructor
  · rintro (rfl | rfl | rfl | rfl)
    · exact Or.inl rfl
    · exact Or.inr (Or.inl rfl)
    · exact Or.inr (Or.inr (Or.inl rfl))
    · exact Or.inr (Or.inr (Or.inr rfl))
  · have hc := Char.ofNat_toNat c
    rintro (h | h | h | h) <;> rw [h] at hc
    · exact Or.inl (by rw [← hc])
    · exact Or.inr (Or.inl (by rw [← hc]))
    · exact Or.inr (Or.inr (Or.inl (by rw [← hc])))
    · exact Or.inr (Or.inr (Or.inr (by rw [← hc])))

theorem isSpaceChar_lowerChar (c : Char) : isSpaceChar (lowerChar c) = isSpaceChar c := by
  by_cases h : 65 ≤ c.toNat ∧ c.toNat ≤ 90
  · have ht := lowerChar_toNat_of_upper h
    have h1 : isSpaceChar (lowerChar c) = false := by
      rw [← Bool.not_eq_true, isSpaceChar_iff_toNat, ht]
      omega
    have h2 : isSpaceChar c = false := by
      rw [← Bool.not_eq_true, isSpaceChar_iff_toNat]
      omega
    rw [h1, h2]
  · have h1 : lowerChar c = c := by unfold lowerChar; rw [if_neg h]
    rw [h1]

theorem dropWhile_map_lower (l : List Char) :
    (l.map lowerChar).dropWhile isSpaceChar = (l.dropWhile isSpaceChar).map lowerChar := by
  induction l with
  | nil => rfl
  | cons c t ih =>
    simp only [List.map_cons, List.dropWhile_cons, isSpaceChar_lowerChar]
    by_cases h : isSpaceChar c = true
    · rw [if_pos h, if_pos h]
      exact ih
    · rw [if_neg h, if_neg h]
      rfl

theorem stripChars_map_lower (l : List Char) :
    stripChars (l.map lowerChar) = (stripChars l).map lowerChar := by
  unfold stripChars
  rw [dropWhile_map_lower, ← List.map_reverse, dropWhile_map_lower, ← List.map_reverse]

theorem dropWhile_fix_reverse_strip (l : List Char)
    (h : l.dropWhile isSpaceChar = l) :
    ((l.reverse.dropWhile isSpaceChar).reverse).dropWhile isSpaceChar =
      (l.reverse.dropWhile isSpaceChar).reverse := by
  cases l with
  | nil => rfl
  | cons x t =>
    have hx : isSpaceChar x = false := by
      by_contra hx
      rw [Bool.not_eq_false] at hx
      rw [List.dropWhile_cons, if_pos hx] at h
      have := congrArg List.length h
      have hle := (List.dropWhile_sublist (l := t) isSpaceChar).length_le
      simp only [List.length_cons] at this
      omega
    rw [List.reverse_cons, List.dropWhile_append]
    by_cases he : (t.reverse.dropWhile isSpaceChar).isEmpty = true
    · rw [if_pos he]
      rw [show List.dropWhile isSpaceChar [x] = [x] from by
        rw [List.dropWhile_cons, if_neg (by rw [hx]; exact Bool.false_ne_true)]]
      simp [List.dropWhile_cons, hx]
    · rw [if_neg he]
      rw [List.reverse_append]
      simp only [List.reverse_cons, List.reverse_nil, List.nil_append, List.singleton_append]
      rw [List.dropWhile_cons, if_neg (by rw [hx]; exact Bool.false_ne_true)]

theorem stripChars_idem (l : List Char) : stripChars (stripChars l) = stripChars l := by
  have hk : (l.dropWhile isSpaceChar).dropWhile isSpaceChar = l.dropWhile isSpaceChar :=
    List.dropWhile_idempotent _ _
  have hs := dropWhile_fix_reverse_strip (l.dropWhile isSpaceChar) hk
  unfold stripChars
  rw [hs, List.reverse_reverse, List.dropWhile_idempotent]

theorem lowerStripStr_idem (s : String) :
    lowerStripStr (lowerStripStr s) = lowerStripStr s := by
  unfold lowerStripStr stripStr lowerStr
  have hmm : ∀ l : List Char, (String.mk l).data = l := fun _ => rfl
  rw [hmm, hmm]
  congr 1
  rw [stripChars_map_lower, stripChars_idem, ← stripChars_map_lower, List.map_map,
    show lowerChar ∘ lowerChar = lowerChar from funext lowerChar_idem]

theorem py_bind_ok {α β : Type} {m : Py α} {f : α → Py β} {y : β}
    (h : (m >>= f) = .ok y) : ∃ x, m = .ok x ∧ f x = .ok y := by
  cases m with
  | ok x =>
    refine ⟨x, rfl, ?_⟩
    simpa [Bind.bind, Except.bind] using h
  | error e =>
    exfalso
    simp [Bind.bind, Except.bind] at h

theorem py_bind_ok_intro {α β : Type} {m : Py α} {f : α → Py β} {x : α}
    (hm : m = .ok x) : (m >>= f) = f x := by
  rw [hm]
  rfl

theorem setKey_setKey (kvs : List (String × Json)) (k : String) (v w : Json) :
    setKey (setKey kvs k v) k w = setKey kvs k w := by
  induction kvs with
  | nil => simp [setKey]
  | cons kv rest ih =>
    obtain ⟨a, b⟩ := kv
    by_cases h : a = k
    · simp [setKey, h]
    · simp [setKey, h, ih]

theorem lookupKey_setKey (kvs : List (String × Json)) (k : String) (v : Json) :
    lookupKey (setKey kvs k v) k = some v := by
  induction kvs with
  | nil => simp [setKey, lookupKey]
  | cons kv rest ih =>
    obtain ⟨a, b⟩ := kv
    by_cases h : a = k
    · simp [setKey, h, lookupKey]
    · simp [setKey, h, lookupKey, ih]

theorem lookupKey_setKey_ne (kvs : List (String × Json)) (k k' : String) (v : Json)
    (h : k ≠ k') : lookupKey (setKey kvs k v) k' = lookupKey kvs k' := by
  induction kvs with
  | nil => simp [setKey, lookupKey, h]
  | cons kv rest ih =>
    obtain ⟨a, b⟩ := kv
    by_cases ha : a = k
    · subst ha
      simp [setKey, lookupKey, h]
    · simp [setKey, ha, lookupKey, ih]

theorem mapPy_ok_forall₂ {α β : Type} {f : α → Py β} :
    ∀ {l : List α} {ys : List β},
      mapPy f l = .ok ys → List.Forall₂ (fun x y => f x = .ok y) l ys := by
  intro l
  induction l with
  | nil =>
    intro ys h
    simp only [mapPy] at h
    injection h with h
    subst h
    exact List.Forall₂.nil
  | cons x xs ih =>
    intro ys h
    simp only [mapPy] at h
    obtain ⟨y, hy, h⟩ := py_bind_ok h
    obtain ⟨ys', hys, h⟩ := py_bind_ok h
    have : y :: ys' = ys := by
      simpa [Pure.pure, Except.pure] using h
    subst this
    exact List.Forall₂.cons hy (ih hys)

theorem mapPy_ok_of_forall₂ {α β : Type} {f : α → Py β} :
    ∀ {l : List α} {ys : List β},
      List.Forall₂ (fun x y => f x = .ok y) l ys → mapPy f l = .ok ys := by
  intro l ys h
  induction h with
  | nil => rfl
  | cons hxy _ ih =>
    simp only [mapPy]
    rw [py_bind_ok_intro hxy, py_bind_ok_intro ih]
    rfl

theorem mapPy_fix {α : Type} {f : α → Py α}
    (hfix : ∀ x y, f x = .ok y → f y = .ok y) :
    ∀ {l ys : List α}, mapPy f l = .ok ys → mapPy f ys = .ok ys := by
  intro l ys h
  apply mapPy_ok_of_forall₂
  have h2 := mapPy_ok_forall₂ h
  clear h
  induction h2 with
  | nil => exact List.Forall₂.nil
  | cons hxy _ ih => exact List.Forall₂.cons (hfix _ _ hxy) ih

theorem ensureUniqueIdsFrom_fix :
    ∀ (items : List Json) (i : Int) (out : List Json),
      ensureUniqueIdsFrom i items = .ok out → ensureUniqueIdsFrom i out = .ok out := by
  intro items
  induction items with
  | nil =>
    intro i out h
    simp only [ensureUniqueIdsFrom] at h
    injection h with h
    subst h
    rfl
  | cons p rest ih =>
    intro i out h
    simp only [ensureUniqueIdsFrom] at h
    obtain ⟨pc, hpc, h⟩ := py_bind_ok h
    obtain ⟨rest', hrest, h⟩ := py_bind_ok h
    have hout : pc :: rest' = out := by
      simpa [Pure.pure, Except.pure] using h
    subst hout
    cases p with
    | obj kvs =>
      simp only [pySetItem] at hpc
      injection hpc with hpc
      simp only [ensureUniqueIdsFrom]
      have hpc2 : pySetItem pc "id" (Json.int i) = .ok pc := by
        rw [← hpc]
        simp only [pySetItem, setKey_setKey]
      rw [py_bind_ok_intro hpc2, py_bind_ok_intro (ih _ _ hrest)]
      rfl
    | null => simp [pySetItem] at hpc
    | bool b => simp [pySetItem] at hpc
    | int n => simp [pySetItem] at hpc
    | str s => simp [pySetItem] at hpc
    | arr l => simp [pySetItem] at hpc

theorem normalize_relationship_fix (r r' : Json)
    (h : _normalize_relationship r = .ok r') :
    _normalize_relationship r' = .ok r' := by
  cases r with
  | obj rkvs =>
    simp only [_normalize_relationship, pyDictGet] at h
    obtain ⟨f0, hf0, h1⟩ := py_bind_ok h
    obtain ⟨fv, hfv, h2⟩ := py_bind_ok h1
    obtain ⟨t0, ht0, h3⟩ := py_bind_ok h2
    obtain ⟨tv, htv, h4⟩ := py_bind_ok h3
    obtain ⟨tyRaw, htyRaw, h5⟩ := py_bind_ok h4
    obtain ⟨tyVal, htyVal, hpure⟩ := py_bind_ok h5
    cases tyRaw with
    | str s =>
      simp only [pyLowerStrip] at htyVal
      injection htyVal with htyVal
      have hr' : r' = Json.obj [("from", fv), ("to", tv), ("type", Json.str (lowerStripStr s))] := by
        rw [← htyVal] at hpure
        simpa [Pure.pure, Except.pure] using hpure.symm
      subst hr'
      simp [_normalize_relationship, pyDictGet, lookupKey, pyLowerStrip, lowerStripStr_idem,
        Bind.bind, Except.bind, Pure.pure, Except.pure]
    | null => simp [pyLowerStrip] at htyVal
    | bool b => simp [pyLowerStrip] at htyVal
    | int n => simp [pyLowerStrip] at htyVal
    | arr l => simp [pyLowerStrip] at htyVal
    | obj o => simp [pyLowerStrip] at htyVal
  | null => simp [_normalize_relationship, pyDictGet, Bind.bind, Except.bind] at h
  | bool b => simp [_normalize_relationship, pyDictGet, Bind.bind, Except.bind] at h
  | int n => simp [_normalize_relationship, pyDictGet, Bind.bind, Except.bind] at h
  | str s => simp [_normalize_relationship, pyDictGet, Bind.bind, Except.bind] at h
  | arr l => simp [_normalize_relationship, pyDictGet, Bind.bind, Except.bind] at h

theorem normalize_pedigree_fix (j Q : Json) (h : normalize_pedigree j = .ok Q) :
    normalize_pedigree Q = .ok Q := by
  cases j with
  | obj jkvs =>
    simp only [normalize_pedigree, ensure_unique_ids, pyDictGet] at h
    obtain ⟨pr, hpr, h1⟩ := py_bind_ok h
    obtain ⟨pitems, hpit, h2⟩ := py_bind_ok h1
    obtain ⟨people, hpeople, h3⟩ := py_bind_ok h2
    obtain ⟨rr, hrr, h4⟩ := py_bind_ok h3
    obtain ⟨ritems, hrit, h5⟩ := py_bind_ok h4
    obtain ⟨rels, hrels, hpure⟩ := py_bind_ok h5
    have hQ : Q = Json.obj [("people", Json.arr people), ("relationships", Json.arr rels)] := by
      simpa [Pure.pure, Except.pure] using hpure.symm
    subst hQ
    have hfix1 : ensureUniqueIdsFrom 1 people = .ok people :=
      ensureUniqueIdsFrom_fix pitems 1 people hpeople
    have hfix2 : mapPy _normalize_relationship rels = .ok rels :=
      mapPy_fix normalize_relationship_fix hrels
    simp [normalize_pedigree, ensure_unique_ids, pyDictGet, lookupKey, pyIter,
      hfix1, hfix2, Bind.bind, Except.bind, Pure.pure, Except.pure]
  | null => simp [normalize_pedigree, pyDictGet, Bind.bind, Except.bind] at h
  | bool b => simp [normalize_pedigree, pyDictGet, Bind.bind, Except.bind] at h
  | int n => simp [normalize_pedigree, pyDictGet, Bind.bind, Except.bind] at h
  | str s => simp [normalize_pedigree, pyDictGet, Bind.bind, Except.bind] at h
  | arr l => simp [normalize_pedigree, pyDictGet, Bind.bind, Except.bind] at h

theorem validate_pedigree_true_none (X : Json) (o : Option String)
    (h : validate_pedigree X = .ok (true, o)) : o = none := by
  cases X with
  | obj kvs =>
    simp only [validate_pedigree] at h
    by_cases hks : hasKey kvs "people" = true ∧ hasKey kvs "relationships" = true
    · rw [if_neg (by simpa using hks)] at h
      obtain ⟨pitems, hpit, h1⟩ := py_bind_ok h
      obtain ⟨pres, hpres, h2⟩ := py_bind_ok h1
      cases pres with
      | inl err =>
        simp [Pure.pure, Except.pure] at h2
      | inr ids =>
        obtain ⟨ritems, hrit, h3⟩ := py_bind_ok h2
        obtain ⟨rres, hrres, h4⟩ := py_bind_ok h3
        cases rres with
        | some err => simp [Pure.pure, Except.pure] at h4
        | none =>
          simp only [Pure.pure, Except.pure] at h4
          injection h4 with h4
          exact (congrArg Prod.snd h4).symm
    · rw [if_pos (by simpa using hks)] at h
      simp [Pure.pure, Except.pure] at h
  | null => simp [validate_pedigree, Pure.pure, Except.pure] at h
  | bool b => simp [validate_pedigree, Pure.pure, Except.pure] at h
  | int n => simp [validate_pedigree, Pure.pure, Except.pure] at h
  | str s => simp [validate_pedigree, Pure.pure, Except.pure] at h
  | arr l => simp [validate_pedigree, Pure.pure, Except.pure] at h

theorem load_ok_inversion (r : Except String Json) (P : Json)
    (h : load_json_payload r = .ok P) :
    ∃ payload, r = .ok payload ∧ normalize_pedigree payload = .ok P ∧
      validate_pedigree P = .ok (true, none) := by
  cases r with
  | error d => simp [load_json_payload] at h
  | ok payload =>
    refine ⟨payload, rfl, ?_⟩
    cases hn : normalize_pedigree payload with
    | error e => simp [load_json_payload, hn] at h
    | ok N =>
      cases hv : validate_pedigree N with
      | error e => simp [load_json_payload, hn, hv] at h
      | ok pr =>
        obtain ⟨b, o⟩ := pr
        cases b with
        | true =>
          have hNP : N = P := by
            have h2 := h
            simp [load_json_payload, hn, hv] at h2
            exact h2
          subst hNP
          have ho := validate_pedigree_true_none _ _ hv
          subst ho
          exact ⟨rfl, hv⟩
        | false =>
          cases o with
          | some err => simp [load_json_payload, hn, hv] at h
          | none => simp [load_json_payload, hn, hv] at h

/-- The integer a person entry's id compares equal to (the value
`validate_pedigree` adds to `person_ids`). -/
def personIdVal (p : Json) : Int :=
  match p with
  | .obj kvs => (pyIntVal ((lookupKey kvs "id").getD Json.null)).getD 0
  | _ => 0

theorem validatePerson_inr (p : Json) (n : Int)
    (h : validatePerson p = .ok (.inr n)) :
    ∃ kvs, p = Json.obj kvs ∧
      hasKey kvs "id" = true ∧ hasKey kvs "name" = true ∧
      hasKey kvs "gender" = true ∧ hasKey kvs "dob" = true ∧
      hasKey kvs "conditions" = true ∧
      isInstInt ((lookupKey kvs "id").getD Json.null) = true ∧
      n = personIdVal p := by
  cases p with
  | obj kvs =>
    refine ⟨kvs, rfl, ?_⟩
    simp only [validatePerson] at h
    by_cases hks : hasKey kvs "id" = true ∧ hasKey kvs "name" = true ∧
        hasKey kvs "gender" = true ∧ hasKey kvs "dob" = true ∧
        hasKey kvs "conditions" = true
    · rw [if_neg (by simpa using hks)] at h
      by_cases hid : isInstInt ((lookupKey kvs "id").getD Json.null) = true
      · rw [if_neg (by simpa using hid)] at h
        obtain ⟨g, hg, h1⟩ := py_bind_ok h
        cases g with
        | false => simp [Pure.pure, Except.pure] at h1
        | true =>
          rw [if_neg (by simp)] at h1
          obtain ⟨d, hd, h2⟩ := py_bind_ok h1
          cases d with
          | false => simp [Pure.pure, Except.pure] at h2
          | true =>
            rw [if_neg (by simp)] at h2
            by_cases hc : isInstList ((lookupKey kvs "conditions").getD Json.null) = true
            · rw [if_neg (by simpa using hc)] at h2
              simp only [Pure.pure, Except.pure] at h2
              injection h2 with h2
              injection h2 with h2
              exact ⟨hks.1, hks.2.1, hks.2.2.1, hks.2.2.2.1, hks.2.2.2.2, hid,
                by rw [← h2]; rfl⟩
            · rw [if_pos (by simpa using hc)] at h2
              simp [Pure.pure, Except.pure] at h2
      · rw [if_pos (by simpa using hid)] at h
        simp [Pure.pure, Except.pure] at h
    · rw [if_pos (by simpa using hks)] at h
      simp [Pure.pure, Except.pure] at h
  | null => simp [validatePerson, Pure.pure, Except.pure] at h
  | bool b => simp [validatePerson, Pure.pure, Except.pure] at h
  | int n2 => simp [validatePerson, Pure.pure, Except.pure] at h
  | str s => simp [validatePerson, Pure.pure, Except.pure] at h
  | arr l => simp [validatePerson, Pure.pure, Except.pure] at h

theorem validatePeopleLoop_inr :
    ∀ (l : List Json) (acc ids : List Int),
      validatePeopleLoop l acc = .ok (.inr ids) →
      ids = acc ++ l.map personIdVal ∧
      ∀ p ∈ l, ∃ n, validatePerson p = .ok (.inr n) := by
  intro l
  induction l with
  | nil =>
    intro acc ids h
    simp only [validatePeopleLoop, Pure.pure, Except.pure] at h
    injection h with h
    injection h with h
    exact ⟨by rw [← h]; simp, by intro p hp; cases hp⟩
  | cons p rest ih =>
    intro acc ids h
    simp only [validatePeopleLoop] at h
    obtain ⟨res, hres, h1⟩ := py_bind_ok h
    cases res with
    | inl err => simp [Pure.pure, Except.pure] at h1
    | inr n =>
      simp only at h1
      obtain ⟨hids, hall⟩ := ih (acc ++ [n]) ids h1
      obtain ⟨kvs, hp, -, -, -, -, -, -, hn⟩ := validatePerson_inr p n hres
      refine ⟨?_, ?_⟩
      · rw [hids, hn]
        simp
      · intro q hq
        rcases List.mem_cons.1 hq with hq | hq
        · exact ⟨n, hq ▸ hres⟩
        · exact hall q hq

theorem normalize_relationship_shape (r nr : Json)
    (h : _normalize_relationship r = .ok nr) :
    ∃ fv tv s, nr = Json.obj [("from", fv), ("to", tv), ("type", Json.str (lowerStripStr s))] := by
  cases r with
  | obj rkvs =>
    simp only [_normalize_relationship, pyDictGet] at h
    obtain ⟨f0, hf0, h1⟩ := py_bind_ok h
    obtain ⟨fv, hfv, h2⟩ := py_bind_ok h1
    obtain ⟨t0, ht0, h3⟩ := py_bind_ok h2
    obtain ⟨tv, htv, h4⟩ := py_bind_ok h3
    obtain ⟨tyRaw, htyRaw, h5⟩ := py_bind_ok h4
    obtain ⟨tyVal, htyVal, hpure⟩ := py_bind_ok h5
    cases tyRaw with
    | str s =>
      simp only [pyLowerStrip] at htyVal
      injection htyVal with htyVal
      refine ⟨fv, tv, s, ?_⟩
      rw [← htyVal] at hpure
      simpa [Pure.pure, Except.pure] using hpure.symm
    | null => simp [pyLowerStrip] at htyVal
    | bool b => simp [pyLowerStrip] at htyVal
    | int n => simp [pyLowerStrip] at htyVal
    | arr l => simp [pyLowerStrip] at htyVal
    | obj o => simp [pyLowerStrip] at htyVal
  | null => simp [_normalize_relationship, pyDictGet, Bind.bind, Except.bind] at h
  | bool b => simp [_normalize_relationship, pyDictGet, Bind.bind, Except.bind] at h
  | int n => simp [_normalize_relationship, pyDictGet, Bind.bind, Except.bind] at h
  | str s => simp [_normalize_relationship, pyDictGet, Bind.bind, Except.bind] at h
  | arr l => simp [_normalize_relationship, pyDictGet, Bind.bind, Except.bind] at h

theorem pyMemIntSet_true (v : Json) (s : List Int) (h : pyMemIntSet v s = .ok true) :
    ∃ m, pyIntVal v = some m ∧ m ∈ s := by
  cases v with
  | int n =>
    simp only [pyMemIntSet, pyIntVal] at h
    injection h with h
    exact ⟨n, rfl, List.mem_of_elem_eq_true h⟩
  | bool b =>
    simp only [pyMemIntSet, pyIntVal] at h
    injection h with h
    exact ⟨if b then 1 else 0, rfl, List.mem_of_elem_eq_true h⟩
  | null => simp [pyMemIntSet, pyIntVal] at h
  | str t => simp [pyMemIntSet, pyIntVal] at h
  | arr l => simp [pyMemIntSet] at h
  | obj o => simp [pyMemIntSet] at h

theorem pyMemStrSet_true (v : Json) (s : List String) (h : pyMemStrSet v s = .ok true) :
    ∃ t, v = Json.str t ∧ t ∈ s := by
  cases v with
  | str t =>
    simp only [pyMemStrSet] at h
    injection h with h
    exact ⟨t, rfl, List.mem_of_elem_eq_true h⟩
  | null => simp [pyMemStrSet] at h
  | bool b => simp [pyMemStrSet] at h
  | int n => simp [pyMemStrSet] at h
  | arr l => simp [pyMemStrSet] at h
  | obj o => simp [pyMemStrSet] at h

theorem validateRelsLoop_none :
    ∀ (l : List Json) (ids : List Int),
      validateRelsLoop l ids = .ok none →
      ∀ r ∈ l, ∃ fv tv ty,
        _normalize_relationship r =
          .ok (Json.obj [("from", fv), ("to", tv), ("type", Json.str ty)]) ∧
        (∃ m, pyIntVal fv = some m ∧ m ∈ ids) ∧
        (∃ m, pyIntVal tv = some m ∧ m ∈ ids) ∧
        ty ∈ ALLOWED_RELATIONSHIP_TYPES ∧ lowerStripStr ty = ty := by
  intro l
  induction l with
  | nil => intro ids h r hr; cases hr
  | cons rel rest ih =>
    intro ids h r hr
    simp only [validateRelsLoop] at h
    obtain ⟨nr, hnr, h1⟩ := py_bind_ok h
    obtain ⟨fv, hfv, h2⟩ := py_bind_ok h1
    obtain ⟨tv, htv, h3⟩ := py_bind_ok h2
    obtain ⟨fm, hfm, h4⟩ := py_bind_ok h3
    obtain ⟨tm, htm, h5⟩ := py_bind_ok h4
    by_cases hboth : fm = true ∧ tm = true
    · rw [if_neg (by simpa using hboth)] at h5
      obtain ⟨tyv, htyv, h6⟩ := py_bind_ok h5
      obtain ⟨tym, htym, h7⟩ := py_bind_ok h6
      cases tym with
      | false => simp [Pure.pure, Except.pure] at h7
      | true =>
        rw [if_neg (by simp)] at h7
        rcases List.mem_cons.1 hr with hr | hr
        · subst hr
          obtain ⟨fv', tv', s, hshape⟩ := normalize_relationship_shape _ _ hnr
          subst hshape
          have hne1 : ¬ ("from" : String) = "to" := by decide
          have hne2 : ¬ ("from" : String) = "type" := by decide
          have hne3 : ¬ ("to" : String) = "type" := by decide
          simp only [pyGetItem, lookupKey, eq_self_iff_true, if_true, ite_true,
            if_neg hne1, if_neg hne2, if_neg hne3] at hfv htv htyv
          have hfv2 : (Except.ok fv' : Py Json) = Except.ok fv := hfv
          have htv2 : (Except.ok tv' : Py Json) = Except.ok tv := htv
          have htyv2 : (Except.ok (Json.str (lowerStripStr s)) : Py Json) = Except.ok tyv := htyv
          injection hfv2 with hfv2
          injection htv2 with htv2
          injection htyv2 with htyv2
          subst hfv2
          subst htv2
          subst htyv2
          rw [hboth.1] at hfm
          rw [hboth.2] at htm
          obtain ⟨m1, hm1, hm1m⟩ := pyMemIntSet_true _ _ hfm
          obtain ⟨m2, hm2, hm2m⟩ := pyMemIntSet_true _ _ htm
          obtain ⟨t, ht, htm2⟩ := pyMemStrSet_true _ _ htym
          injection ht with ht
          exact ⟨_, _, lowerStripStr s, hnr, ⟨m1, hm1, hm1m⟩, ⟨m2, hm2, hm2m⟩,
            by rw [ht]; exact htm2, lowerStripStr_idem s⟩
        · exact ih ids h7 r hr
    · rw [if_pos (by simpa using hboth)] at h5
      simp [Pure.pure, Except.pure] at h5

theorem validate_true_inversion (kvs : List (String × Json))
    (h : validate_pedigree (Json.obj kvs) = .ok (true, none)) :
    hasKey kvs "people" = true ∧ hasKey kvs "relationships" = true ∧
    ∃ pitems ids ritems,
      pyIter ((lookupKey kvs "people").getD Json.null) = .ok pitems ∧
      validatePeopleLoop pitems [] = .ok (.inr ids) ∧
      pyIter ((lookupKey kvs "relationships").getD Json.null) = .ok ritems ∧
      validateRelsLoop ritems ids = .ok none := by
  simp only [validate_pedigree] at h
  by_cases hks : hasKey kvs "people" = true ∧ hasKey kvs "relationships" = true
  · rw [if_neg (by simpa using hks)] at h
    obtain ⟨pitems, hpit, h1⟩ := py_bind_ok h
    obtain ⟨pres, hpres, h2⟩ := py_bind_ok h1
    cases pres with
    | inl err => simp [Pure.pure, Except.pure] at h2
    | inr ids =>
      obtain ⟨ritems, hrit, h3⟩ := py_bind_ok h2
      obtain ⟨rres, hrres, h4⟩ := py_bind_ok h3
      cases rres with
      | some err => simp [Pure.pure, Except.pure] at h4
      | none => exact ⟨hks.1, hks.2, pitems, ids, ritems, hpit, hpres, hrit, hrres⟩
  · rw [if_pos (by simpa using hks)] at h
    simp [Pure.pure, Except.pure] at h

theorem mapPy_ok_each {α β : Type} (f : α → Py β) :
    ∀ (l : List α), (∀ x ∈ l, ∃ y, f x = .ok y) → ∃ ys, mapPy f l = .ok ys := by
  intro l
  induction l with
  | nil => intro _; exact ⟨[], rfl⟩
  | cons x xs ih =>
    intro hall
    obtain ⟨y, hy⟩ := hall x (List.mem_cons_self x xs)
    obtain ⟨ys, hys⟩ := ih (fun z hz => hall z (List.mem_cons_of_mem x hz))
    refine ⟨y :: ys, ?_⟩
    simp only [mapPy]
    rw [py_bind_ok_intro hy, py_bind_ok_intro hys]
    rfl

theorem ensureUniqueIdsFrom_ok :
    ∀ (l : List Json) (i : Int), (∀ p ∈ l, isInstDict p = true) →
      ∃ out, ensureUniqueIdsFrom i l = .ok out := by
  intro l
  induction l with
  | nil => intro i _; exact ⟨[], rfl⟩
  | cons p rest ih =>
    intro i hall
    have hp := hall p (List.mem_cons_self p rest)
    obtain ⟨out, hout⟩ := ih (i + 1) (fun q hq => hall q (List.mem_cons_of_mem p hq))
    cases p with
    | obj kvs =>
      refine ⟨Json.obj (setKey kvs "id" (Json.int i)) :: out, ?_⟩
      simp only [ensureUniqueIdsFrom]
      rw [py_bind_ok_intro
        (show pySetItem (Json.obj kvs) "id" (Json.int i) =
          .ok (Json.obj (setKey kvs "id" (Json.int i))) from rfl)]
      rw [py_bind_ok_intro hout]
      rfl
    | null => simp [isInstDict] at hp
    | bool b => simp [isInstDict] at hp
    | int n => simp [isInstDict] at hp
    | str s => simp [isInstDict] at hp
    | arr a => simp [isInstDict] at hp

theorem valid_normalize_ok (P : Json) (h : validate_pedigree P = .ok (true, none)) :
    ∃ Q, normalize_pedigree P = .ok Q := by
  cases P with
  | obj kvs =>
    obtain ⟨hpk, hrk, pitems, ids, ritems, hpit, hploop, hrit, hrloop⟩ :=
      validate_true_inversion kvs h
    obtain ⟨pv, hpv⟩ := Option.isSome_iff_exists.1 (by simpa [hasKey] using hpk)
    obtain ⟨rv, hrv⟩ := Option.isSome_iff_exists.1 (by simpa [hasKey] using hrk)
    have hpv' : pyDictGet (Json.obj kvs) "people" (Json.arr []) = .ok pv := by
      simp [pyDictGet, hpv]
    have hrv' : pyDictGet (Json.obj kvs) "relationships" (Json.arr []) = .ok rv := by
      simp [pyDictGet, hrv]
    have hpit' : pyIter pv = .ok pitems := by rw [hpv] at hpit; simpa using hpit
    have hrit' : pyIter rv = .ok ritems := by rw [hrv] at hrit; simpa using hrit
    have hdicts : ∀ p ∈ pitems, isInstDict p = true := by
      intro p hp
      obtain ⟨-, hall⟩ := validatePeopleLoop_inr pitems [] ids hploop
      obtain ⟨n, hn⟩ := hall p hp
      obtain ⟨pkvs, hpk2, -⟩ := validatePerson_inr p n hn
      rw [hpk2]
      rfl
    obtain ⟨out, hout⟩ := ensureUniqueIdsFrom_ok pitems 1 hdicts
    have hrels0 : ∀ rel ∈ ritems, ∃ nr, _normalize_relationship rel = .ok nr := by
      intro rel hrel
      obtain ⟨fv, tv, ty, hnr, -⟩ := validateRelsLoop_none ritems ids hrloop rel hrel
      exact ⟨_, hnr⟩
    obtain ⟨rels, hrels⟩ := mapPy_ok_each _ ritems hrels0
    refine ⟨Json.obj [("people", Json.arr out), ("relationships", Json.arr rels)], ?_⟩
    simp only [normalize_pedigree, ensure_unique_ids]
    rw [py_bind_ok_intro hpv', py_bind_ok_intro hpit', py_bind_ok_intro hout,
        py_bind_ok_intro hrv', py_bind_ok_intro hrit', py_bind_ok_intro hrels]
    rfl
  | null => simp [validate_pedigree, Pure.pure, Except.pure] at h
  | bool b => simp [validate_pedigree, Pure.pure, Except.pure] at h
  | int n => simp [validate_pedigree, Pure.pure, Except.pure] at h
  | str s => simp [validate_pedigree, Pure.pure, Except.pure] at h
  | arr a => simp [validate_pedigree, Pure.pure, Except.pure] at h

/-- **C4.** `normalize_pedigree` is idempotent on valid pedigrees: whenever
`validate_pedigree P` accepts `P`, normalizing `P` succeeds with some `Q`,
and normalizing `Q` again returns `Q` itself (structural identity), so
`normalize (normalize P) = normalize P`. -/
theorem normalize_idempotent_on_valid (P : Json)
    (h : validate_pedigree P = .ok (true, none)) :
    ∃ Q, normalize_pedigree P = .ok Q ∧ normalize_pedigree Q = .ok Q := by
  obtain ⟨Q, hQ⟩ := valid_normalize_ok P h
  exact ⟨Q, hQ, normalize_pedigree_fix P Q hQ⟩

/-- A concrete schema-valid pedigree. -/
def pedValidW : Json :=
  Json.obj [("people", Json.arr [Json.obj [("id", Json.int 1), ("name", Json.str "A"),
    ("gender", Json.str "F"), ("dob", Json.str "approx"), ("conditions", Json.arr [])]]),
    ("relationships", Json.arr [])]

theorem normalize_idempotent_witness :
    validate_pedigree pedValidW = .ok (true, none) ∧
    ∃ Q, normalize_pedigree pedValidW = .ok Q ∧ normalize_pedigree Q = .ok Q :=
  ⟨rfl, normalize_idempotent_on_valid pedValidW rfl⟩

theorem pyMemIntSet_ok_true {v : Json} {s : List Int} {m : Int}
    (hm : pyIntVal v = some m) (hmem : m ∈ s) : pyMemIntSet v s = .ok true := by
  cases v with
  | int n =>
    injection hm with hm
    subst hm
    simp only [pyMemIntSet, pyIntVal]
    have he : s.contains n = true := List.elem_eq_true_of_mem hmem
    rw [he]
  | bool b =>
    injection hm with hm
    subst hm
    simp only [pyMemIntSet, pyIntVal]
    have he : s.contains (if b = true then 1 else 0) = true := List.elem_eq_true_of_mem hmem
    rw [he]
  | null => simp [pyIntVal] at hm
  | str t => simp [pyIntVal] at hm
  | arr a => simp [pyIntVal] at hm
  | obj o => simp [pyIntVal] at hm

theorem validateRelsLoop_ok_intro :
    ∀ (l : List Json) (ids : List Int),
      (∀ rel ∈ l, ∃ fv tv ty,
        _normalize_relationship rel =
          .ok (Json.obj [("from", fv), ("to", tv), ("type", Json.str ty)]) ∧
        (∃ m, pyIntVal fv = some m ∧ m ∈ ids) ∧
        (∃ m, pyIntVal tv = some m ∧ m ∈ ids) ∧
        ty ∈ ALLOWED_RELATIONSHIP_TYPES) →
      validateRelsLoop l ids = .ok none := by
  intro l
  induction l with
  | nil => intro ids _; rfl
  | cons rel rest ih =>
    intro ids hall
    obtain ⟨fv, tv, ty, hnr, ⟨m1, hm1, hm1m⟩, ⟨m2, hm2, hm2m⟩, hty⟩ :=
      hall rel (List.mem_cons_self rel rest)
    have hrest := ih ids (fun q hq => hall q (List.mem_cons_of_mem rel hq))
    simp only [validateRelsLoop]
    rw [py_bind_ok_intro hnr,
        py_bind_ok_intro (show pyGetItem
          (Json.obj [("from", fv), ("to", tv), ("type", Json.str ty)]) "from" = .ok fv from rfl),
        py_bind_ok_intro (show pyGetItem
          (Json.obj [("from", fv), ("to", tv), ("type", Json.str ty)]) "to" = .ok tv from rfl),
        py_bind_ok_intro (pyMemIntSet_ok_true hm1 hm1m),
        py_bind_ok_intro (pyMemIntSet_ok_true hm2 hm2m)]
    rw [if_neg (by simp)]
    rw [py_bind_ok_intro (show pyGetItem
          (Json.obj [("from", fv), ("to", tv), ("type", Json.str ty)]) "type" =
          .ok (Json.str ty) from rfl),
        py_bind_ok_intro (show pyMemStrSet (Json.str ty) ALLOWED_RELATIONSHIP_TYPES =
          .ok (ALLOWED_RELATIONSHIP_TYPES.contains ty) from rfl)]
    have he : ALLOWED_RELATIONSHIP_TYPES.contains ty = true := List.elem_eq_true_of_mem hty
    rw [he]
    rw [if_neg (by simp)]
    exact hrest

/-- A JSON-representable value Python can hash (membership tests on it do
not raise). -/
def hashableVal (v : Json) : Bool :=
  match v with
  | .arr _ => false
  | .obj _ => false
  | _ => true

theorem pyMemIntSet_total {v : Json} (s : List Int) (h : hashableVal v = true) :
    ∃ b, pyMemIntSet v s = .ok b := by
  cases v with
  | null => exact ⟨false, rfl⟩
  | bool b => exact ⟨_, rfl⟩
  | int n => exact ⟨_, rfl⟩
  | str t => exact ⟨false, rfl⟩
  | arr a => simp [hashableVal] at h
  | obj o => simp [hashableVal] at h

theorem validateRelsLoop_total :
    ∀ (l : List Json) (ids : List Int),
      (∀ rel ∈ l, ∃ fv tv ty,
        _normalize_relationship rel =
          .ok (Json.obj [("from", fv), ("to", tv), ("type", Json.str ty)]) ∧
        hashableVal fv = true ∧ hashableVal tv = true) →
      ∃ o, validateRelsLoop l ids = .ok o := by
  intro l
  induction l with
  | nil => intro ids _; exact ⟨none, rfl⟩
  | cons rel rest ih =>
    intro ids hall
    obtain ⟨fv, tv, ty, hnr, hhf, hht⟩ := hall rel (List.mem_cons_self rel rest)
    obtain ⟨o, ho⟩ := ih ids (fun q hq => hall q (List.mem_cons_of_mem rel hq))
    obtain ⟨b1, hb1⟩ := pyMemIntSet_total ids hhf
    obtain ⟨b2, hb2⟩ := pyMemIntSet_total ids hht
    simp only [validateRelsLoop]
    rw [py_bind_ok_intro hnr,
        py_bind_ok_intro (show pyGetItem
          (Json.obj [("from", fv), ("to", tv), ("type", Json.str ty)]) "from" = .ok fv from rfl),
        py_bind_ok_intro (show pyGetItem
          (Json.obj [("from", fv), ("to", tv), ("type", Json.str ty)]) "to" = .ok tv from rfl),
        py_bind_ok_intro hb1, py_bind_ok_intro hb2]
    by_cases hb : b1 = true ∧ b2 = true
    · rw [if_neg (by simpa using hb)]
      rw [py_bind_ok_intro (show pyGetItem
            (Json.obj [("from", fv), ("to", tv), ("type", Json.str ty)]) "type" =
            .ok (Json.str ty) from rfl),
          py_bind_ok_intro (show pyMemStrSet (Json.str ty) ALLOWED_RELATIONSHIP_TYPES =
            .ok (ALLOWED_RELATIONSHIP_TYPES.contains ty) from rfl)]
      by_cases hc : ALLOWED_RELATIONSHIP_TYPES.contains ty = true
      · rw [if_neg (by simpa using hc)]
        exact ⟨o, ho⟩
      · rw [if_pos (by simpa using hc)]
        exact ⟨_, rfl⟩
    · rw [if_pos (by simpa using hb)]
      exact ⟨_, rfl⟩

/-- **C5.** Characterization of `validate_pedigree` on structurally sound
pedigrees (required keys present, people all accepted, yielding
`person_ids = ids`): it accepts when every relationship normalizes to
`from`/`to` values comparing equal to declared ids and a type inside the
allowed set; and it rejects (`ok = false` with a reason) when every
relationship still normalizes and hashes cleanly but some relationship's
`from`/`to` is not a declared id or its lower-cased trimmed type is
outside the allowed set. -/
theorem validate_pedigree_characterization
    (kvs : List (String × Json)) (pitems ritems : List Json) (ids : List Int)
    (hpk : hasKey kvs "people" = true) (hrk : hasKey kvs "relationships" = true)
    (hpit : pyIter ((lookupKey kvs "people").getD Json.null) = .ok pitems)
    (hploop : validatePeopleLoop pitems [] = .ok (.inr ids))
    (hrit : pyIter ((lookupKey kvs "relationships").getD Json.null) = .ok ritems) :
    ((∀ rel ∈ ritems, ∃ fv tv ty,
        _normalize_relationship rel =
          .ok (Json.obj [("from", fv), ("to", tv), ("type", Json.str ty)]) ∧
        (∃ m, pyIntVal fv = some m ∧ m ∈ ids) ∧
        (∃ m, pyIntVal tv = some m ∧ m ∈ ids) ∧
        ty ∈ ALLOWED_RELATIONSHIP_TYPES) →
      validate_pedigree (Json.obj kvs) = .ok (true, none)) ∧
    ((∀ rel ∈ ritems, ∃ fv tv ty,
        _normalize_relationship rel =
          .ok (Json.obj [("from", fv), ("to", tv), ("type", Json.str ty)]) ∧
        hashableVal fv = true ∧ hashableVal tv = true) →
      (∃ rel ∈ ritems, ∃ fv tv ty,
        _normalize_relationship rel =
          .ok (Json.obj [("from", fv), ("to", tv), ("type", Json.str ty)]) ∧
        ¬ ((∃ m, pyIntVal fv = some m ∧ m ∈ ids) ∧
           (∃ m, pyIntVal tv = some m ∧ m ∈ ids) ∧
           ty ∈ ALLOWED_RELATIONSHIP_TYPES)) →
      ∃ msg, validate_pedigree (Json.obj kvs) = .ok (false, some msg)) := by
  constructor
  · intro hall
    have hrloop := validateRelsLoop_ok_intro ritems ids hall
    simp [validate_pedigree, hpk, hrk, hpit, hploop, hrit, hrloop, Bind.bind, Except.bind,
      Pure.pure, Except.pure]
  · intro hall hbad
    obtain ⟨o, ho⟩ := validateRelsLoop_total ritems ids hall
    cases o with
    | none =>
      exfalso
      obtain ⟨rel, hrel, fv, tv, ty, hnr, hviol⟩ := hbad
      obtain ⟨fv', tv', ty', hnr', hf', ht', hty', -⟩ :=
        validateRelsLoop_none ritems ids ho rel hrel
      rw [hnr] at hnr'
      simp only [Except.ok.injEq, Json.obj.injEq, List.cons.injEq, Prod.mk.injEq,
        Json.str.injEq, true_and, and_true] at hnr'
      obtain ⟨e1, e2, e3⟩ := hnr'
      subst e1
      subst e2
      subst e3
      exact hviol ⟨hf', ht', hty'⟩
    | some msg =>
      refine ⟨msg, ?_⟩
      simp [validate_pedigree, hpk, hrk, hpit, hploop, hrit, ho, Bind.bind, Except.bind,
        Pure.pure, Except.pure]

/-- A valid one-person pedigree with one self-referencing sibling edge. -/
def personW1 : Json :=
  Json.obj [("id", Json.int 1), ("name", Json.str "A"), ("gender", Json.str "F"),
    ("dob", Json.str "approx"), ("conditions", Json.arr [])]

/-- A well-formed relationship between declared ids. -/
def relW11 : Json :=
  Json.obj [("from", Json.int 1), ("to", Json.int 1), ("type", Json.str "sibling")]

/-- A relationship referencing the undeclared id 9. -/
def relW91 : Json :=
  Json.obj [("from", Json.int 9), ("to", Json.int 1), ("type", Json.str "sibling")]

def kvsC5ok : List (String × Json) :=
  [("people", Json.arr [personW1]), ("relationships", Json.arr [relW11])]

def kvsC5bad : List (String × Json) :=
  [("people", Json.arr [personW1]), ("relationships", Json.arr [relW91])]

theorem validate_pedigree_characterization_witness :
    validate_pedigree (Json.obj kvsC5ok) = .ok (true, none) ∧
    ∃ msg, validate_pedigree (Json.obj kvsC5bad) = .ok (false, some msg) := by
  constructor
  · apply (validate_pedigree_characterization kvsC5ok [personW1] [relW11] [1]
      rfl rfl rfl rfl rfl).1
    intro rel hrel
    rw [List.mem_singleton] at hrel
    subst hrel
    exact ⟨Json.int 1, Json.int 1, "sibling", rfl, ⟨1, rfl, by decide⟩, ⟨1, rfl, by decide⟩,
      by decide⟩
  · apply (validate_pedigree_characterization kvsC5bad [personW1] [relW91] [1]
      rfl rfl rfl rfl rfl).2
    · intro rel hrel
      rw [List.mem_singleton] at hrel
      subst hrel
      exact ⟨Json.int 9, Json.int 1, "sibling", rfl, rfl, rfl⟩
    · refine ⟨relW91, List.mem_singleton.2 rfl, Json.int 9, Json.int 1, "sibling", rfl, ?_⟩
      intro hcon
      obtain ⟨⟨m, hm, hmem⟩, -, -⟩ := hcon
      injection hm with hm
      subst hm
      exact absurd hmem (by decide)

theorem normalize_pedigree_counterexample :
    normalize_pedigree (Json.obj [("people", Json.int 3)]) =
      .error (.typeError "object is not iterable") := rfl

/-- A JSON value that is a string. -/
def isStrVal (v : Json) : Bool :=
  match v with
  | .str _ => true
  | _ => false

/-- A relationship entry `_normalize_relationship` digests without raising:
a mapping whose `type` entry (defaulting to `""`) is a string. -/
def relNormOKb (rel : Json) : Bool :=
  match rel with
  | .obj kvs => isStrVal ((lookupKey kvs "type").getD (Json.str ""))
  | _ => false

/-- The loop precondition behind Python `for x in v: ... `: `v` iterates
without raising and every iterated element satisfies `p`. -/
def iterAll (p : Json → Bool) (v : Json) : Bool :=
  match pyIter v with
  | .ok items => items.all p
  | .error _ => false

/-- The exact domain on which `normalize_pedigree` is exception-free: a
mapping whose `people` entry (defaulting to `[]`) iterates to mappings
and whose `relationships` entry (defaulting to `[]`) iterates to entries
`_normalize_relationship` digests.  (A non-list iterable such as an
empty dict or empty string iterates to nothing and so qualifies
vacuously.) -/
def normInputOK (j : Json) : Bool :=
  match j with
  | .obj kvs =>
    iterAll isInstDict ((lookupKey kvs "people").getD (Json.arr [])) &&
    iterAll relNormOKb ((lookupKey kvs "relationships").getD (Json.arr []))
  | _ => false

theorem iterAll_true {p : Json → Bool} {v : Json} (h : iterAll p v = true) :
    ∃ items, pyIter v = .ok items ∧ ∀ x ∈ items, p x = true := by
  revert h
  unfold iterAll
  cases hv : pyIter v with
  | ok items =>
    intro h
    have h2 : items.all p = true := h
    exact ⟨items, rfl, fun x hx => List.all_eq_true.1 h2 x hx⟩
  | error e =>
    intro h
    have h2 : false = true := h
    cases h2

theorem iterAll_intro (p : Json → Bool) (v : Json) (items : List Json)
    (hv : pyIter v = .ok items) (hall : ∀ x ∈ items, p x = true) :
    iterAll p v = true := by
  unfold iterAll
  rw [hv]
  exact List.all_eq_true.2 hall

theorem normalize_relationship_ok (rel : Json) (h : relNormOKb rel = true) :
    ∃ nr, _normalize_relationship rel = .ok nr := by
  cases rel with
  | obj kvs =>
    simp only [relNormOKb] at h
    cases hty : (lookupKey kvs "type").getD (Json.str "") with
    | str s =>
      have hmain : _normalize_relationship (Json.obj kvs) =
          .ok (Json.obj
            [("from", (lookupKey kvs "from").getD ((lookupKey kvs "from_id").getD Json.null)),
             ("to", (lookupKey kvs "to").getD ((lookupKey kvs "to_id").getD Json.null)),
             ("type", Json.str (lowerStripStr s))]) := by
        simp only [_normalize_relationship]
        rw [py_bind_ok_intro (show pyDictGet (Json.obj kvs) "from_id" Json.null =
            .ok ((lookupKey kvs "from_id").getD Json.null) from rfl),
          py_bind_ok_intro (show pyDictGet (Json.obj kvs) "from"
              ((lookupKey kvs "from_id").getD Json.null) =
            .ok ((lookupKey kvs "from").getD ((lookupKey kvs "from_id").getD Json.null))
            from rfl),
          py_bind_ok_intro (show pyDictGet (Json.obj kvs) "to_id" Json.null =
            .ok ((lookupKey kvs "to_id").getD Json.null) from rfl),
          py_bind_ok_intro (show pyDictGet (Json.obj kvs) "to"
              ((lookupKey kvs "to_id").getD Json.null) =
            .ok ((lookupKey kvs "to").getD ((lookupKey kvs "to_id").getD Json.null))
            from rfl),
          py_bind_ok_intro (show pyDictGet (Json.obj kvs) "type" (Json.str "") =
            .ok (Json.str s) from by simp [pyDictGet, hty]),
          py_bind_ok_intro (show pyLowerStrip (Json.str s) =
            .ok (Json.str (lowerStripStr s)) from rfl)]
        rfl
      exact ⟨_, hmain⟩
    | null => rw [hty] at h; simp [isStrVal] at h
    | bool b => rw [hty] at h; simp [isStrVal] at h
    | int n => rw [hty] at h; simp [isStrVal] at h
    | arr a => rw [hty] at h; simp [isStrVal] at h
    | obj o => rw [hty] at h; simp [isStrVal] at h
  | null => simp [relNormOKb] at h
  | bool b => simp [relNormOKb] at h
  | int n => simp [relNormOKb] at h
  | str s => simp [relNormOKb] at h
  | arr a => simp [relNormOKb] at h

theorem ensureUniqueIdsFrom_ok_dicts :
    ∀ (l : List Json) (i : Int) (out : List Json),
      ensureUniqueIdsFrom i l = .ok out → ∀ p ∈ l, isInstDict p = true := by
  intro l
  induction l with
  | nil => intro i out _ p hp; cases hp
  | cons q rest ih =>
    intro i out h p hp
    simp only [ensureUniqueIdsFrom] at h
    obtain ⟨pc, hpc, h1⟩ := py_bind_ok h
    obtain ⟨rest2, hrest, -⟩ := py_bind_ok h1
    rcases List.mem_cons.1 hp with hp | hp
    · rw [hp]
      cases q with
      | obj pkvs => rfl
      | null => simp [pySetItem] at hpc
      | bool b => simp [pySetItem] at hpc
      | int n => simp [pySetItem] at hpc
      | str s => simp [pySetItem] at hpc
      | arr a => simp [pySetItem] at hpc
    · exact ih (i + 1) rest2 hrest p hp

theorem normalize_relationship_ok_inv (rel nr : Json)
    (h : _normalize_relationship rel = .ok nr) : relNormOKb rel = true := by
  cases rel with
  | obj rkvs =>
    simp only [_normalize_relationship, pyDictGet] at h
    obtain ⟨f0, hf0, h1⟩ := py_bind_ok h
    obtain ⟨fv, hfv, h2⟩ := py_bind_ok h1
    obtain ⟨t0, ht0, h3⟩ := py_bind_ok h2
    obtain ⟨tv, htv, h4⟩ := py_bind_ok h3
    obtain ⟨tyRaw, htyRaw, h5⟩ := py_bind_ok h4
    obtain ⟨tyVal, htyVal, -⟩ := py_bind_ok h5
    injection htyRaw with htyRaw
    cases tyRaw with
    | str s =>
      simp only [relNormOKb]
      rw [htyRaw]
      rfl
    | null => simp [pyLowerStrip] at htyVal
    | bool b => simp [pyLowerStrip] at htyVal
    | int n => simp [pyLowerStrip] at htyVal
    | arr a => simp [pyLowerStrip] at htyVal
    | obj o => simp [pyLowerStrip] at htyVal
  | null => simp [_normalize_relationship, pyDictGet, Bind.bind, Except.bind] at h
  | bool b => simp [_normalize_relationship, pyDictGet, Bind.bind, Except.bind] at h
  | int n => simp [_normalize_relationship, pyDictGet, Bind.bind, Except.bind] at h
  | str s => simp [_normalize_relationship, pyDictGet, Bind.bind, Except.bind] at h
  | arr a => simp [_normalize_relationship, pyDictGet, Bind.bind, Except.bind] at h

theorem forall₂_mem_left {α β : Type} {R : α → β → Prop} :
    ∀ {xs : List α} {ys : List β}, List.Forall₂ R xs ys → ∀ x ∈ xs, ∃ y, R x y := by
  intro xs ys h
  induction h with
  | nil => intro x hx; cases hx
  | cons hr _ ih =>
    intro x hx
    rcases List.mem_cons.1 hx with hx | hx
    · subst hx
      exact ⟨_, hr⟩
    · exact ih x hx

theorem normalize_ok_input (j Q : Json) (h : normalize_pedigree j = .ok Q) :
    normInputOK j = true := by
  cases j with
  | obj kvs =>
    simp only [normalize_pedigree, ensure_unique_ids, pyDictGet] at h
    obtain ⟨pr, hpr, h1⟩ := py_bind_ok h
    obtain ⟨pitems, hpit, h2⟩ := py_bind_ok h1
    obtain ⟨people, hpeople, h3⟩ := py_bind_ok h2
    obtain ⟨rr, hrr, h4⟩ := py_bind_ok h3
    obtain ⟨ritems, hrit, h5⟩ := py_bind_ok h4
    obtain ⟨rels, hrels, -⟩ := py_bind_ok h5
    injection hpr with hpr
    injection hrr with hrr
    subst hpr
    subst hrr
    simp only [normInputOK, Bool.and_eq_true]
    refine ⟨iterAll_intro _ _ pitems hpit
      (ensureUniqueIdsFrom_ok_dicts pitems 1 people hpeople),
      iterAll_intro _ _ ritems hrit ?_⟩
    intro x hx
    obtain ⟨y, hy⟩ := forall₂_mem_left (mapPy_ok_forall₂ hrels) x hx
    exact normalize_relationship_ok_inv x y hy
  | null => simp [normalize_pedigree, pyDictGet, Bind.bind, Except.bind] at h
  | bool b => simp [normalize_pedigree, pyDictGet, Bind.bind, Except.bind] at h
  | int n => simp [normalize_pedigree, pyDictGet, Bind.bind, Except.bind] at h
  | str s => simp [normalize_pedigree, pyDictGet, Bind.bind, Except.bind] at h
  | arr a => simp [normalize_pedigree, pyDictGet, Bind.bind, Except.bind] at h

theorem normalize_pedigree_total_on_wellshaped (j : Json) (h : normInputOK j = true) :
    ∃ Q, normalize_pedigree j = .ok Q := by
  cases j with
  | obj kvs =>
    simp only [normInputOK, Bool.and_eq_true] at h
    obtain ⟨h1, h2⟩ := h
    obtain ⟨items, hpit, hdicts⟩ := iterAll_true h1
    obtain ⟨relItems, hrit, hrels0⟩ := iterAll_true h2
    obtain ⟨out, hout⟩ := ensureUniqueIdsFrom_ok items 1 hdicts
    obtain ⟨rels, hrels⟩ := mapPy_ok_each _ relItems
      (fun rel hrel => normalize_relationship_ok rel (hrels0 rel hrel))
    have hmain : normalize_pedigree (Json.obj kvs) =
        .ok (Json.obj [("people", Json.arr out), ("relationships", Json.arr rels)]) := by
      simp only [normalize_pedigree, ensure_unique_ids]
      rw [py_bind_ok_intro (show pyDictGet (Json.obj kvs) "people" (Json.arr []) =
            .ok ((lookupKey kvs "people").getD (Json.arr [])) from rfl),
          py_bind_ok_intro hpit,
          py_bind_ok_intro hout,
          py_bind_ok_intro (show pyDictGet (Json.obj kvs) "relationships" (Json.arr []) =
            .ok ((lookupKey kvs "relationships").getD (Json.arr [])) from rfl),
          py_bind_ok_intro hrit,
          py_bind_ok_intro hrels]
      rfl
    exact ⟨_, hmain⟩
  | null => simp [normInputOK] at h
  | bool b => simp [normInputOK] at h
  | int n => simp [normInputOK] at h
  | str s => simp [normInputOK] at h
  | arr a => simp [normInputOK] at h

/-- **C3.** Amended totality of `normalize_pedigree`: normalization
returns a value (rather than raising) exactly on the mappings whose
`people` entry (defaulting to `[]`) iterates without raising to
mappings, and whose `relationships` entry (defaulting to `[]`) iterates
without raising to values from which `_normalize_relationship` can read
an absent-or-string `type`; on every other JSON-representable value —
such as a non-mapping payload or `{"people": 3}` — it raises. -/
theorem normalize_pedigree_total_iff (j : Json) :
    (∃ Q, normalize_pedigree j = .ok Q) ↔ normInputOK j = true := by
  constructor
  · rintro ⟨Q, hQ⟩
    exact normalize_ok_input j Q hQ
  · exact normalize_pedigree_total_on_wellshaped j

/-- A mapping payload inside the exception-free normalization domain. -/
def jC3w : Json :=
  Json.obj [("people", Json.arr [Json.obj []]),
    ("relationships", Json.arr [Json.obj []])]

theorem normalize_pedigree_total_witness :
    (normInputOK jC3w = true ∧ ∃ Q, normalize_pedigree jC3w = .ok Q) ∧
    (normInputOK (Json.obj [("people", Json.obj [])]) = true ∧
     ∃ Q, normalize_pedigree (Json.obj [("people", Json.obj [])]) = .ok Q) :=
  ⟨⟨rfl, (normalize_pedigree_total_iff jC3w).2 rfl⟩,
   ⟨rfl, (normalize_pedigree_total_iff (Json.obj [("people", Json.obj [])])).2 rfl⟩⟩

theorem load_json_payload_counterexample :
    load_json_payload (.ok (Json.obj [("people", Json.str "ab")])) =
      .pythonError (.typeError "object does not support item assignment") := rfl

theorem string_append_ne_empty (s d : String) (hs : s.data ≠ []) : s ++ d ≠ "" := by
  intro he
  have hdata := congrArg String.data he
  rw [String.data_append] at hdata
  simp at hdata
  exact hs hdata.1

/-- **C1.** Amended outcome analysis of `load_json_payload`: on parse
failure it raises `PedigreeValidationError` wrapping the parser's
diagnostic; when it returns, the returned pedigree is schema-valid and a
normalization fixed point; every raised `PedigreeValidationError` carries
a nonempty reason (`error or "Unknown validation error"`); but exceptions
raised while normalizing a wrongly-shaped parsed payload escape as
Python-level errors rather than `PedigreeValidationError`, so validation
wrapping is not the only failure mode. -/
theorem load_json_payload_outcomes (r : Except String Json) :
    (∀ d, r = .error d →
      load_json_payload r = .validationError ("Invalid JSON payload: " ++ d)) ∧
    (∀ P, load_json_payload r = .ok P →
      validate_pedigree P = .ok (true, none) ∧ normalize_pedigree P = .ok P) ∧
    (∀ msg, load_json_payload r = .validationError msg → msg ≠ "") ∧
    (∀ payload e, r = .ok payload → normalize_pedigree payload = .error e →
      load_json_payload r = .pythonError e) := by
  refine ⟨?_, ?_, ?_, ?_⟩
  · intro d hd
    subst hd
    rfl
  · intro P hP
    obtain ⟨payload, hr, hnorm, hval⟩ := load_ok_inversion r P hP
    exact ⟨hval, normalize_pedigree_fix payload P hnorm⟩
  · intro msg hmsg
    cases r with
    | error d =>
      simp only [load_json_payload] at hmsg
      injection hmsg with hmsg
      rw [← hmsg]
      exact string_append_ne_empty "Invalid JSON payload: " d (by decide)
    | ok payload =>
      cases hn : normalize_pedigree payload with
      | error e => simp [load_json_payload, hn] at hmsg
      | ok N =>
        cases hv : validate_pedigree N with
        | error e => simp [load_json_payload, hn, hv] at hmsg
        | ok pr =>
          obtain ⟨b, o⟩ := pr
          cases b with
          | true => simp [load_json_payload, hn, hv] at hmsg
          | false =>
            cases o with
            | some err =>
              have hmsg2 : (if err = "" then "Unknown validation error" else err) = msg := by
                have h2 := hmsg
                simp [load_json_payload, hn, hv] at h2
                exact h2
              by_cases he : err = ""
              · rw [if_pos he] at hmsg2
                rw [← hmsg2]
                decide
              · rw [if_neg he] at hmsg2
                rw [← hmsg2]
                exact he
            | none =>
              have hmsg2 : "Unknown validation error" = msg := by
                have h2 := hmsg
                simp [load_json_payload, hn, hv] at h2
                exact h2
              rw [← hmsg2]
              decide
  · intro payload e hr hne
    subst hr
    simp [load_json_payload, hne]

theorem load_json_payload_outcomes_witness :
    load_json_payload (Except.error "bad token") =
      LoadResult.validationError "Invalid JSON payload: bad token" :=
  (load_json_payload_outcomes (Except.error "bad token")).1 "bad token" rfl

theorem forall₂_mem_right {α β : Type} {R : α → β → Prop} :
    ∀ {xs : List α} {ys : List β}, List.Forall₂ R xs ys → ∀ y ∈ ys, ∃ x, R x y := by
  intro xs ys h
  induction h with
  | nil => intro y hy; cases hy
  | cons hr _ ih =>
    intro y hy
    rcases List.mem_cons.1 hy with hy | hy
    · subst hy
      exact ⟨_, hr⟩
    · exact ih y hy

theorem normalize_relationship_of_normalized (fv tv : Json) (u : String) :
    _normalize_relationship (Json.obj [("from", fv), ("to", tv), ("type", Json.str u)]) =
      .ok (Json.obj [("from", fv), ("to", tv), ("type", Json.str (lowerStripStr u))]) := by
  simp [_normalize_relationship, pyDictGet, lookupKey, pyLowerStrip, Bind.bind, Except.bind,
    Pure.pure, Except.pure]

theorem ensureUniqueIdsFrom_shape :
    ∀ (l : List Json) (i : Int) (out : List Json),
      ensureUniqueIdsFrom i l = .ok out →
      ∀ j (hj : j < out.length), ∃ kvs, out.get ⟨j, hj⟩ = Json.obj kvs ∧
        lookupKey kvs "id" = some (Json.int (i + j)) := by
  intro l
  induction l with
  | nil =>
    intro i out h j hj
    simp only [ensureUniqueIdsFrom] at h
    injection h with h
    subst h
    simp at hj
  | cons p rest ih =>
    intro i out h j hj
    simp only [ensureUniqueIdsFrom] at h
    obtain ⟨pc, hpc, h1⟩ := py_bind_ok h
    obtain ⟨rest', hrest, h2⟩ := py_bind_ok h1
    have hout : pc :: rest' = out := by simpa [Pure.pure, Except.pure] using h2
    subst hout
    cases p with
    | obj pkvs =>
      simp only [pySetItem] at hpc
      injection hpc with hpc
      subst hpc
      cases j with
      | zero =>
        refine ⟨setKey pkvs "id" (Json.int i), rfl, ?_⟩
        rw [lookupKey_setKey]
        norm_num
      | succ j' =>
        have hj' : j' < rest'.length := by simpa using hj
        obtain ⟨kvs, hk1, hk2⟩ := ih (i + 1) rest' hrest j' hj'
        refine ⟨kvs, by simpa using hk1, ?_⟩
        have he : ((i + 1) + (j' : Int)) = i + ((j' + 1 : Nat) : Int) := by push_cast; ring
        rw [hk2, he]
    | null => simp [pySetItem] at hpc
    | bool b => simp [pySetItem] at hpc
    | int n => simp [pySetItem] at hpc
    | str s => simp [pySetItem] at hpc
    | arr a => simp [pySetItem] at hpc

theorem normalize_ok_structure (payload Q : Json) (h : normalize_pedigree payload = .ok Q) :
    ∃ pitems people ritems rels,
      Q = Json.obj [("people", Json.arr people), ("relationships", Json.arr rels)] ∧
      ensureUniqueIdsFrom 1 pitems = .ok people ∧
      mapPy _normalize_relationship ritems = .ok rels := by
  cases payload with
  | obj jkvs =>
    simp only [normalize_pedigree, ensure_unique_ids, pyDictGet] at h
    obtain ⟨pr, hpr, h1⟩ := py_bind_ok h
    obtain ⟨pitems, hpit, h2⟩ := py_bind_ok h1
    obtain ⟨people, hpeople, h3⟩ := py_bind_ok h2
    obtain ⟨rr, hrr, h4⟩ := py_bind_ok h3
    obtain ⟨ritems, hrit, h5⟩ := py_bind_ok h4
    obtain ⟨rels, hrels, hpure⟩ := py_bind_ok h5
    have hQ : Q = Json.obj [("people", Json.arr people), ("relationships", Json.arr rels)] := by
      simpa [Pure.pure, Except.pure] using hpure.symm
    exact ⟨pitems, people, ritems, rels, hQ, hpeople, hrels⟩
  | null => simp [normalize_pedigree, pyDictGet, Bind.bind, Except.bind] at h
  | bool b => simp [normalize_pedigree, pyDictGet, Bind.bind, Except.bind] at h
  | int n => simp [normalize_pedigree, pyDictGet, Bind.bind, Except.bind] at h
  | str s => simp [normalize_pedigree, pyDictGet, Bind.bind, Except.bind] at h
  | arr a => simp [normalize_pedigree, pyDictGet, Bind.bind, Except.bind] at h

theorem ids_mem_iff (people : List Json)
    (hshape : ∀ j (hj : j < people.length), ∃ kvs, people.get ⟨j, hj⟩ = Json.obj kvs ∧
      lookupKey kvs "id" = some (Json.int (1 + j))) (m : Int) :
    m ∈ people.map personIdVal ↔ 1 ≤ m ∧ m ≤ (people.length : Int) := by
  constructor
  · intro hm
    rw [List.mem_map] at hm
    obtain ⟨p, hp, hpm⟩ := hm
    rw [List.mem_iff_get] at hp
    obtain ⟨⟨j, hj⟩, hget⟩ := hp
    obtain ⟨kvs, hobj, hid⟩ := hshape j hj
    rw [hget] at hobj
    subst hobj
    rw [← hpm]
    simp only [personIdVal, hid, Option.getD_some, pyIntVal]
    constructor
    · omega
    · omega
  · intro hb
    obtain ⟨h1, h2⟩ := hb
    have hj : (m - 1).toNat < people.length := by omega
    obtain ⟨kvs, hobj, hid⟩ := hshape (m - 1).toNat hj
    rw [List.mem_map]
    refine ⟨people.get ⟨(m - 1).toNat, hj⟩, List.get_mem _ _ _, ?_⟩
    rw [hobj]
    simp only [personIdVal, hid, Option.getD_some, pyIntVal]
    omega

/-- **C9.** Canonical-form invariant of `load_json_payload`: every
returned pedigree is a mapping with exactly the `people` and
`relationships` entries; the `j`-th person is a mapping whose `id` is the
integer `j + 1` (ids are exactly `1..n` in list order); and every
relationship is a mapping with exactly the keys `from`, `to`, `type`,
whose `from`/`to` values compare equal to ids in `1..n` and whose `type`
is a lower-cased, trimmed member of the allowed relationship-type set. -/
theorem load_canonical_form (r : Except String Json) (P : Json)
    (h : load_json_payload r = .ok P) :
    ∃ people rels,
      P = Json.obj [("people", Json.arr people), ("relationships", Json.arr rels)] ∧
      (∀ j (hj : j < people.length), ∃ kvs, people.get ⟨j, hj⟩ = Json.obj kvs ∧
        lookupKey kvs "id" = some (Json.int (1 + j))) ∧
      (∀ rel ∈ rels, ∃ fv tv ty,
        rel = Json.obj [("from", fv), ("to", tv), ("type", Json.str ty)] ∧
        (∃ m, pyIntVal fv = some m ∧ 1 ≤ m ∧ m ≤ (people.length : Int)) ∧
        (∃ m, pyIntVal tv = some m ∧ 1 ≤ m ∧ m ≤ (people.length : Int)) ∧
        ty ∈ ALLOWED_RELATIONSHIP_TYPES ∧ lowerStripStr ty = ty) := by
  obtain ⟨payload, hr, hnorm, hval⟩ := load_ok_inversion r P h
  obtain ⟨pitems, people, ritems, rels, hQ, hens, hmap⟩ := normalize_ok_structure payload P hnorm
  subst hQ
  have hshape := ensureUniqueIdsFrom_shape pitems 1 people hens
  refine ⟨people, rels, rfl, hshape, ?_⟩
  obtain ⟨-, -, pitems', ids, ritems', hpit, hploop, hrit, hrloop⟩ :=
    validate_true_inversion _ hval
  have hp1 : pyIter ((lookupKey [("people", Json.arr people),
      ("relationships", Json.arr rels)] "people").getD Json.null) = .ok people := rfl
  have hpe : people = pitems' := by
    have := hp1.symm.trans hpit
    injection this
  subst hpe
  have hr1 : pyIter ((lookupKey [("people", Json.arr people),
      ("relationships", Json.arr rels)] "relationships").getD Json.null) = .ok rels := rfl
  have hre : rels = ritems' := by
    have := hr1.symm.trans hrit
    injection this
  subst hre
  obtain ⟨hids, -⟩ := validatePeopleLoop_inr people [] ids hploop
  have hids' : ids = people.map personIdVal := by simpa using hids
  subst hids'
  intro rel hrel
  obtain ⟨x, hx⟩ := forall₂_mem_right (mapPy_ok_forall₂ hmap) rel hrel
  obtain ⟨fv, tv, s, hrelshape⟩ := normalize_relationship_shape x rel hx
  subst hrelshape
  obtain ⟨fv', tv', ty', hnr', hf', ht', htya', -⟩ :=
    validateRelsLoop_none _ _ hrloop _ hrel
  rw [normalize_relationship_of_normalized fv tv (lowerStripStr s)] at hnr'
  rw [lowerStripStr_idem s] at hnr'
  simp only [Except.ok.injEq, Json.obj.injEq, List.cons.injEq, Prod.mk.injEq,
    Json.str.injEq, true_and, and_true] at hnr'
  obtain ⟨e1, e2, e3⟩ := hnr'
  subst e1
  subst e2
  subst e3
  obtain ⟨m1, hm1, hm1m⟩ := hf'
  obtain ⟨m2, hm2, hm2m⟩ := ht'
  rw [ids_mem_iff people hshape] at hm1m hm2m
  exact ⟨_, _, _, rfl, ⟨m1, hm1, hm1m.1, hm1m.2⟩,
    ⟨m2, hm2, hm2m.1, hm2m.2⟩, htya', lowerStripStr_idem s⟩

theorem load_canonical_form_witness :
    load_json_payload (.ok (Json.obj kvsC5ok)) = .ok (Json.obj kvsC5ok) ∧
    ∃ people rels,
      Json.obj kvsC5ok =
        Json.obj [("people", Json.arr people), ("relationships", Json.arr rels)] ∧
      (∀ j (hj : j < people.length), ∃ kvs, people.get ⟨j, hj⟩ = Json.obj kvs ∧
        lookupKey kvs "id" = some (Json.int (1 + j))) ∧
      (∀ rel ∈ rels, ∃ fv tv ty,
        rel = Json.obj [("from", fv), ("to", tv), ("type", Json.str ty)] ∧
        (∃ m, pyIntVal fv = some m ∧ 1 ≤ m ∧ m ≤ (people.length : Int)) ∧
        (∃ m, pyIntVal tv = some m ∧ 1 ≤ m ∧ m ≤ (people.length : Int)) ∧
        ty ∈ ALLOWED_RELATIONSHIP_TYPES ∧ lowerStripStr ty = ty) :=
  ⟨rfl, load_canonical_form (.ok (Json.obj kvsC5ok)) (Json.obj kvsC5ok) rfl⟩

theorem mapPy_rename_shape :
    ∀ (items : List Json),
      (∀ p ∈ items, ∃ pkvs idv, p = Json.obj pkvs ∧ lookupKey pkvs "id" = some idv) →
      ∃ items', mapPy (fun person => do
          let idVal ← pyGetItem person "id"
          pySetItem person "name" (Json.str ("Person-" ++ pyStrOf idVal))) items = .ok items' ∧
        items'.length = items.length ∧
        ∀ j (hj : j < items.length) (hj' : j < items'.length),
          ∃ pkvs idv, items.get ⟨j, hj⟩ = Json.obj pkvs ∧
            lookupKey pkvs "id" = some idv ∧
            items'.get ⟨j, hj'⟩ =
              Json.obj (setKey pkvs "name" (Json.str ("Person-" ++ pyStrOf idv))) := by
  intro items
  induction items with
  | nil =>
    intro _
    exact ⟨[], rfl, rfl, fun j hj _ => absurd hj (by simp)⟩
  | cons p rest ih =>
    intro hall
    obtain ⟨pkvs, idv, hpe, hid⟩ := hall p (List.mem_cons_self p rest)
    obtain ⟨rest', hrest, hlen, hpoint⟩ := ih (fun q hq => hall q (List.mem_cons_of_mem p hq))
    subst hpe
    have hren : (do
        let idVal ← pyGetItem (Json.obj pkvs) "id"
        pySetItem (Json.obj pkvs) "name" (Json.str ("Person-" ++ pyStrOf idVal))) =
        .ok (Json.obj (setKey pkvs "name" (Json.str ("Person-" ++ pyStrOf idv)))) := by
      rw [py_bind_ok_intro (show pyGetItem (Json.obj pkvs) "id" = .ok idv from by
        simp [pyGetItem, hid])]
      rfl
    refine ⟨Json.obj (setKey pkvs "name" (Json.str ("Person-" ++ pyStrOf idv))) :: rest',
      ?_, by simp [hlen], ?_⟩
    · simp only [mapPy]
      rw [py_bind_ok_intro hren, py_bind_ok_intro hrest]
      rfl
    · intro j hj hj'
      cases j with
      | zero => exact ⟨pkvs, idv, rfl, hid, rfl⟩
      | succ j' =>
        have hj2 : j' < rest.length := by simpa using hj
        have hj2' : j' < rest'.length := by simpa using hj'
        obtain ⟨pk, iv, h1, h2, h3⟩ := hpoint j' hj2 hj2'
        exact ⟨pk, iv, by simpa using h1, h2, by simpa using h3⟩

/-- **C8.** `pseudonymize_pedigree` on a validated pedigree: the copy's
`people` list is rewritten pointwise so that each person's `name` becomes
`"Person-" + str(id)` for that person's own `id`, while every other
person field (`id`, `gender`, `dob`, `conditions`) and the
`relationships` entry are looked up unchanged; a validated pedigree whose
`people` entry is a non-list (necessarily empty) iterable passes through
identically.  The model is a pure function on the JSON deep copy, so the
input value itself is untouched. -/
theorem pseudonymize_pedigree_validated (P : Json)
    (h : validate_pedigree P = .ok (true, none)) :
    ∃ kvs pv, P = Json.obj kvs ∧ lookupKey kvs "people" = some pv ∧
      (((∀ its, pv ≠ Json.arr its) ∧ pseudonymize_pedigree P = .ok P) ∨
       ∃ items items',
         pv = Json.arr items ∧
         pseudonymize_pedigree P = .ok (Json.obj (setKey kvs "people" (Json.arr items'))) ∧
         lookupKey (setKey kvs "people" (Json.arr items')) "relationships" =
           lookupKey kvs "relationships" ∧
         items'.length = items.length ∧
         ∀ j (hj : j < items.length) (hj' : j < items'.length),
           ∃ pkvs idv, items.get ⟨j, hj⟩ = Json.obj pkvs ∧
             lookupKey pkvs "id" = some idv ∧
             items'.get ⟨j, hj'⟩ =
               Json.obj (setKey pkvs "name" (Json.str ("Person-" ++ pyStrOf idv))) ∧
             lookupKey (setKey pkvs "name" (Json.str ("Person-" ++ pyStrOf idv))) "name" =
               some (Json.str ("Person-" ++ pyStrOf idv)) ∧
             ∀ k, k ≠ "name" →
               lookupKey (setKey pkvs "name" (Json.str ("Person-" ++ pyStrOf idv))) k =
                 lookupKey pkvs k) := by
  cases P with
  | obj kvs =>
    obtain ⟨hpk, hrk, pitems, ids, ritems, hpit, hploop, hrit, hrloop⟩ :=
      validate_true_inversion kvs h
    obtain ⟨pv, hpv⟩ := Option.isSome_iff_exists.1 (by simpa [hasKey] using hpk)
    have hpit' : pyIter pv = .ok pitems := by rw [hpv] at hpit; simpa using hpit
    have hdict : ∀ p ∈ pitems, ∃ pkvs idv,
        p = Json.obj pkvs ∧ lookupKey pkvs "id" = some idv := by
      intro p hp
      obtain ⟨-, hall⟩ := validatePeopleLoop_inr pitems [] ids hploop
      obtain ⟨n, hn⟩ := hall p hp
      obtain ⟨pkvs, hpe, hk1, -, -, -, -, -, -⟩ := validatePerson_inr p n hn
      obtain ⟨idv, hidv⟩ := Option.isSome_iff_exists.1 (by simpa [hasKey] using hk1)
      exact ⟨pkvs, idv, hpe, hidv⟩
    refine ⟨kvs, pv, rfl, hpv, ?_⟩
    cases pv with
    | arr items =>
      simp only [pyIter] at hpit'
      injection hpit' with he
      subst he
      obtain ⟨items', hmap, hlen, hpoint⟩ := mapPy_rename_shape items hdict
      refine Or.inr ⟨items, items', rfl, ?_, ?_, hlen, ?_⟩
      · have hdg : pyDictGet (Json.obj kvs) "people" (Json.arr []) = .ok (Json.arr items) := by
          simp [pyDictGet, hpv]
        simp only [pseudonymize_pedigree]
        rw [py_bind_ok_intro hdg]
        show (do
            let out ← mapPy (fun person => do
                let idVal ← pyGetItem person "id"
                pySetItem person "name" (Json.str ("Person-" ++ pyStrOf idVal))) items
            pure (Json.obj (setKey kvs "people" (Json.arr out)))) =
          .ok (Json.obj (setKey kvs "people" (Json.arr items')))
        rw [py_bind_ok_intro hmap]
        rfl
      · exact lookupKey_setKey_ne kvs "people" "relationships" _ (by decide)
      · intro j hj hj'
        obtain ⟨pkvs, idv, h1, h2, h3⟩ := hpoint j hj hj'
        refine ⟨pkvs, idv, h1, h2, h3, lookupKey_setKey pkvs "name" _, ?_⟩
        intro k hk
        exact lookupKey_setKey_ne pkvs "name" k _ (fun he => hk he.symm)
    | null => exact absurd hpit' (by simp [pyIter])
    | bool b => exact absurd hpit' (by simp [pyIter])
    | int n => exact absurd hpit' (by simp [pyIter])
    | str s =>
      cases hs : s.data with
      | cons c cs =>
        exfalso
        simp only [pyIter, hs] at hpit'
        injection hpit' with he
        obtain ⟨pkvs, idv, hpe, -⟩ := hdict (Json.str (String.mk [c]))
          (by rw [← he]; exact List.mem_cons_self _ _)
        cases hpe
      | nil =>
        have hpitE : pyIter (Json.str s) = .ok [] := by
          simp [pyIter, hs]
        refine Or.inl ⟨fun its hc => Json.noConfusion hc, ?_⟩
        simp [pseudonymize_pedigree, pyDictGet, hpv, hpitE, mapPy, Bind.bind, Except.bind,
          Pure.pure, Except.pure]
    | obj okvs =>
      cases okvs with
      | cons kv okrest =>
        exfalso
        simp only [pyIter] at hpit'
        injection hpit' with he
        obtain ⟨pkvs, idv, hpe, -⟩ := hdict (Json.str kv.1)
          (by rw [← he]; exact List.mem_cons_self _ _)
        cases hpe
      | nil =>
        have hpitE : pyIter (Json.obj []) = .ok [] := by simp [pyIter]
        refine Or.inl ⟨fun its hc => Json.noConfusion hc, ?_⟩
        simp [pseudonymize_pedigree, pyDictGet, hpv, hpitE, mapPy, Bind.bind, Except.bind,
          Pure.pure, Except.pure]
  | null => simp [validate_pedigree, Pure.pure, Except.pure] at h
  | bool b => simp [validate_pedigree, Pure.pure, Except.pure] at h
  | int n => simp [validate_pedigree, Pure.pure, Except.pure] at h
  | str s => simp [validate_pedigree, Pure.pure, Except.pure] at h
  | arr a => simp [validate_pedigree, Pure.pure, Except.pure] at h

theorem pseudonymize_pedigree_validated_witness :
    validate_pedigree (Json.obj kvsC5ok) = .ok (true, none) ∧
    ∃ kvs pv, Json.obj kvsC5ok = Json.obj kvs ∧ lookupKey kvs "people" = some pv ∧
      (((∀ its, pv ≠ Json.arr its) ∧
          pseudonymize_pedigree (Json.obj kvsC5ok) = .ok (Json.obj kvsC5ok)) ∨
       ∃ items items',
         pv = Json.arr items ∧
         pseudonymize_pedigree (Json.obj kvsC5ok) =
           .ok (Json.obj (setKey kvs "people" (Json.arr items'))) ∧
         lookupKey (setKey kvs "people" (Json.arr items')) "relationships" =
           lookupKey kvs "relationships" ∧
         items'.length = items.length ∧
         ∀ j (hj : j < items.length) (hj' : j < items'.length),
           ∃ pkvs idv, items.get ⟨j, hj⟩ = Json.obj pkvs ∧
             lookupKey pkvs "id" = some idv ∧
             items'.get ⟨j, hj'⟩ =
               Json.obj (setKey pkvs "name" (Json.str ("Person-" ++ pyStrOf idv))) ∧
             lookupKey (setKey pkvs "name" (Json.str ("Person-" ++ pyStrOf idv))) "name" =
               some (Json.str ("Person-" ++ pyStrOf idv)) ∧
             ∀ k, k ≠ "name" →
               lookupKey (setKey pkvs "name" (Json.str ("Person-" ++ pyStrOf idv))) k =
                 lookupKey pkvs k) :=
  ⟨rfl, pseudonymize_pedigree_validated (Json.obj kvsC5ok) rfl⟩
